import Mathlib

/-!
Verification of the FlashUSDT tranche ledger (`contracts/FlashUSDT.sol`).

The contract keeps, for every account, a dynamic array of `FlashBalance`
tranches `{amount, expiresAt}` next to the ordinary ERC20 balance mapping
and total supply.  We embed the contract state as finite association
lists (mirroring the Solidity mappings, whose non-written keys read as
zero/empty), and every external entry point as an executable function on
that state.  Machine integers are modelled as `Nat`: Solidity 0.8
arithmetic reverts on wrap-around, so no completed operation ever
observes an overflowed value, and the two `unchecked` subtractions in
OpenZeppelin's `_update` are guarded by balance checks that make them
exact.  A revert is modelled as `Except.error`: the EVM discards every
state change of a reverted call, so an `error` result carries no state.
-/

set_option maxHeartbeats 1000000
set_option synthInstance.maxHeartbeats 400000

namespace Flash

/-- Account addresses; `0` is the zero address `address(0)`. -/
abbrev Addr := Nat

/-- `struct FlashBalance { uint256 amount; uint64 expiresAt; }` -/
structure Tranche where
  amount : Nat
  expiresAt : Nat
deriving DecidableEq

/-- Default tranche used where Solidity would read storage that the loop
invariants keep in bounds. -/
def dflt : Tranche := ⟨0, 0⟩

/-- Events emitted by the contract: ERC20 `Transfer` plus the contract's
`FlashMinted` and `ExpiredBalanceBurned`. -/
inductive Event where
  | transferred (f dst : Addr) (value : Nat)
  | flashMinted (dst : Addr) (amount : Nat) (expiresAt : Nat)
  | expiredBalanceBurned (account : Addr) (amount : Nat) (burnedAt : Nat)
deriving DecidableEq

/-- Read from an association list modelling a Solidity mapping; absent
keys read the default (zero) value. -/
def alGet (m : List (Addr × β)) (a : Addr) (d : β) : β :=
  match m with
  | [] => d
  | (b, v) :: r => if b = a then v else alGet r a d

/-- Write to an association list modelling a Solidity mapping. -/
def alSet (m : List (Addr × β)) (a : Addr) (v : β) : List (Addr × β) :=
  match m with
  | [] => [(a, v)]
  | (b, w) :: r => if b = a then (a, v) :: r else (b, w) :: alSet r a v

/-- Sum a valuation of the entries of an association list. -/
def alSum (f : β → Nat) (m : List (Addr × β)) : Nat :=
  (m.map (fun p => f p.2)).sum

/-- Contract storage: `_flashBalances`, the ERC20 `_balances` mapping,
`_totalSupply`, and the emitted event log. -/
structure Ledger where
  flash : List (Addr × List Tranche)
  bal : List (Addr × Nat)
  supply : Nat
  events : List Event
deriving DecidableEq

def trOf (s : Ledger) (a : Addr) : List Tranche := alGet s.flash a []

def setTr (s : Ledger) (a : Addr) (l : List Tranche) : Ledger :=
  { s with flash := alSet s.flash a l }

def balOf (s : Ledger) (a : Addr) : Nat := alGet s.bal a 0

def setBal (s : Ledger) (a : Addr) (v : Nat) : Ledger :=
  { s with bal := alSet s.bal a v }

def emit (s : Ledger) (e : Event) : Ledger := { s with events := s.events ++ [e] }

/-- The freshly deployed contract: no balances, no tranches, zero supply. -/
def initLedger : Ledger := ⟨[], [], 0, []⟩

/-- Sum of the amounts of a tranche list. -/
def trancheSum (l : List Tranche) : Nat := (l.map Tranche.amount).sum

/-- `activeBalanceOf`: sum of tranches with `block.timestamp < expiresAt`. -/
def activeSum (t : Nat) : List Tranche → Nat
  | [] => 0
  | x :: r => (if t < x.expiresAt then x.amount else 0) + activeSum t r

/-- `expiredBalanceOf`: sum of tranches with `block.timestamp >= expiresAt`. -/
def expiredSum (t : Nat) : List Tranche → Nat
  | [] => 0
  | x :: r => (if x.expiresAt ≤ t then x.amount else 0) + expiredSum t r

def activeBalanceOf (t : Nat) (s : Ledger) (a : Addr) : Nat := activeSum t (trOf s a)

def expiredBalanceOf (t : Nat) (s : Ledger) (a : Addr) : Nat := expiredSum t (trOf s a)

/-- `tranches[i] = tranches[tranches.length - 1]; tranches.pop();` —
swap-with-last removal of index `i`. -/
def removeSwap (l : List Tranche) (i : Nat) : List Tranche :=
  (l.set i (l.getLastD dflt)).dropLast

/-- `_appendTranche` on one tranche list: merge into the last tranche when
its expiry matches exactly, otherwise push a new record. -/
def appendList (l : List Tranche) (amount e : Nat) : List Tranche :=
  if 0 < l.length ∧ (l.getLastD dflt).expiresAt = e then
    l.set (l.length - 1) ⟨(l.getLastD dflt).amount + amount, (l.getLastD dflt).expiresAt⟩
  else
    l ++ [⟨amount, e⟩]

/-- `_appendTranche(account, amount, expiresAt)`. -/
def appendTranche (s : Ledger) (a : Addr) (amount e : Nat) : Ledger :=
  setTr s a (appendList (trOf s a) amount e)

/-- The `while` loop of `_syncExpiry`.  The extra `Nat` argument counts the
remaining loop iterations: each iteration either removes the current
element (length decreases) or advances `i`, so `tranches.length - i`
decreases by exactly one per iteration and the loop runs for precisely
`l.length` iterations when started at `i = 0`.  The `i < l.length` guard
is the loop condition itself, so exhausting the counter early is
impossible at the call site below. -/
def syncGo (t : Nat) : Nat → List Tranche → Nat → Nat → List Tranche × Nat
  | 0, l, _, b => (l, b)
  | n + 1, l, i, b =>
    if i < l.length then
      if (l.getD i dflt).expiresAt ≤ t then
        syncGo t n (removeSwap l i) i (b + (l.getD i dflt).amount)
      else
        syncGo t n l (i + 1) b
    else (l, b)

/-- The list-level effect of `_syncExpiry`: purged tranche list plus the
accumulated `burnedAmount`. -/
def syncList (t : Nat) (l : List Tranche) : List Tranche × Nat :=
  syncGo t l.length l 0 0

/-- OpenZeppelin ERC20 `_update(from, dst, value)` (the `super._update`
called by the contract): debit `from` (or grow supply when `from == 0`,
reverting on insufficient balance), then credit `dst` (or shrink supply
when `dst == 0`), then emit `Transfer`.  This helper is the credit half. -/
def erc20Credit (s : Ledger) (f dst : Addr) (v : Nat) : Ledger :=
  if dst = 0 then
    emit { s with supply := s.supply - v } (Event.transferred f dst v)
  else
    emit (setBal s dst (balOf s dst + v)) (Event.transferred f dst v)

/-- OpenZeppelin ERC20 `_update(from, dst, value)`, debit half plus credit. -/
def erc20Update (s : Ledger) (f dst : Addr) (v : Nat) : Except String Ledger :=
  if f = 0 then
    Except.ok (erc20Credit { s with supply := s.supply + v } f dst v)
  else if balOf s f < v then
    Except.error "ERC20InsufficientBalance"
  else
    Except.ok (erc20Credit (setBal s f (balOf s f - v)) f dst v)

/-- `_syncExpiry(account)`: purge expired tranches, then (when anything
was burned) `super._update(account, address(0), burnedAmount)` under the
bypass flag and emit `ExpiredBalanceBurned`.  Returns the new state and
the burned amount. -/
def syncExpiry (t : Nat) (s : Ledger) (a : Addr) : Except String (Ledger × Nat) :=
  let l := (syncList t (trOf s a)).1
  let burned := (syncList t (trOf s a)).2
  let s1 := setTr s a l
  if 0 < burned then
    match erc20Update s1 a 0 burned with
    | Except.error e => Except.error e
    | Except.ok s2 => Except.ok (emit s2 (Event.expiredBalanceBurned a burned t), burned)
  else Except.ok (s1, burned)

/-- One iteration of the `_moveTranches` while-loop body, returning the
next state, next `remaining` and next `i`.  Mirrors the source exactly,
including the storage aliasing when `f = dst`: the `tranches[i].amount -=
take` on line 141 re-reads the array after `_appendTranche` may have
modified it. -/
def moveStep (s : Ledger) (f dst : Addr) (rem i : Nat) : Ledger × Nat × Nat :=
  let x := (trOf s f).getD i dflt
  let tk := if x.amount ≤ rem then x.amount else rem
  let s1 := appendTranche s dst tk x.expiresAt
  let y := (trOf s1 f).getD i dflt
  let l2 := (trOf s1 f).set i ⟨y.amount - tk, y.expiresAt⟩
  if y.amount - tk = 0 then
    (setTr s1 f (removeSwap l2 i), rem - tk, i)
  else
    (setTr s1 f l2, rem - tk, i + 1)

/-- The `_moveTranches` while-loop.  The first argument is the remaining
gas budget: the EVM bounds every loop by the gas supplied with the call,
and running out of it reverts, which `none` models.  (With positive
tranche amounts each iteration moves at least one unit, so the budget
chosen in `moveTranches` below is never exhausted in reachable states.) -/
def moveLoop : Nat → Ledger → Addr → Addr → Nat → Nat → Option (Ledger × Nat)
  | 0, _, _, _, _, _ => none
  | fuel + 1, s, f, dst, rem, i =>
    if 0 < rem ∧ i < (trOf s f).length then
      match moveStep s f dst rem i with
      | (s', rem', i') => moveLoop fuel s' f dst rem' i'
    else Option.some (s, rem)

/-- `_moveTranches(from, dst, amount)`: run the loop, then
`require(remaining == 0, "Insufficient active flash balance")`. -/
def moveTranches (s : Ledger) (f dst : Addr) (amount : Nat) : Except String Ledger :=
  match moveLoop (amount + (trOf s f).length + 1) s f dst amount 0 with
  | none => Except.error "out of gas"
  | Option.some (s', rem) =>
    if rem = 0 then Except.ok s' else Except.error "Insufficient active flash balance"

/-- `mintFlash(dst, amount, expiresAt)` (the `onlyOwner` check is access
control on the caller, outside the ledger state): validate, sync the
recipient, append the tranche, `_mint` (which goes through `_update` with
`from == 0`, i.e. straight to `super._update`), emit `FlashMinted`. -/
def mintFlash (t : Nat) (s : Ledger) (dst : Addr) (amount expiresAt : Nat) :
    Except String Ledger :=
  if dst = 0 then Except.error "Invalid recipient"
  else if amount = 0 then Except.error "Amount must be greater than zero"
  else if expiresAt ≤ t then Except.error "Expiry must be in future"
  else
    match syncExpiry t s dst with
    | Except.error e => Except.error e
    | Except.ok (s1, _) =>
      match erc20Update (appendTranche s1 dst amount expiresAt) 0 dst amount with
      | Except.error e => Except.error e
      | Except.ok s2 => Except.ok (emit s2 (Event.flashMinted dst amount expiresAt))

/-- ERC20 `transfer(dst, value)` with `from = _msgSender()`: the zero
checks of `_transfer`, then the overridden `_update`'s transfer path —
sync both sides, `_moveTranches`, `super._update`. -/
def transfer (t : Nat) (s : Ledger) (f dst : Addr) (v : Nat) : Except String Ledger :=
  if f = 0 then Except.error "ERC20InvalidSender"
  else if dst = 0 then Except.error "ERC20InvalidReceiver"
  else
    match syncExpiry t s f with
    | Except.error e => Except.error e
    | Except.ok (s1, _) =>
      match syncExpiry t s1 dst with
      | Except.error e => Except.error e
      | Except.ok (s2, _) =>
        match moveTranches s2 f dst v with
        | Except.error e => Except.error e
        | Except.ok s3 => erc20Update s3 f dst v

/-- `burnExpired(account)`: just `_syncExpiry`, returning the burned amount. -/
def burnExpired (t : Nat) (s : Ledger) (a : Addr) : Except String (Ledger × Nat) :=
  syncExpiry t s a

/-- The loop of `sweepExpired(accounts)`. -/
def sweepGo (t : Nat) (s : Ledger) : List Addr → Except String Ledger
  | [] => Except.ok s
  | a :: r =>
    match syncExpiry t s a with
    | Except.error e => Except.error e
    | Except.ok (s1, _) => sweepGo t s1 r

/-- `sweepExpired(accounts)`. -/
def sweepExpired (t : Nat) (s : Ledger) (accounts : List Addr) : Except String Ledger :=
  sweepGo t s accounts

/-- The external mutating entry points of the contract. -/
inductive Op where
  | mint (dst : Addr) (amount expiresAt : Nat)
  | transfer (f dst : Addr) (amount : Nat)
  | burnExpired (a : Addr)
  | sweepExpired (accounts : List Addr)

/-- Execute one entry point at time `t` (`block.timestamp`). -/
def applyOp (t : Nat) (s : Ledger) : Op → Except String Ledger
  | Op.mint dst amount e => mintFlash t s dst amount e
  | Op.transfer f dst v => transfer t s f dst v
  | Op.burnExpired a =>
    match burnExpired t s a with
    | Except.error e => Except.error e
    | Except.ok (s', _) => Except.ok s'
  | Op.sweepExpired l => sweepExpired t s l

/-- States reachable from the empty ledger by completed operations (a
reverted operation leaves the state unchanged, so it contributes
nothing). Each operation may run at an arbitrary timestamp. -/
inductive Reachable : Ledger → Prop
  | init : Reachable initLedger
  | step {s s' : Ledger} (t : Nat) (op : Op) :
      Reachable s → applyOp t s op = Except.ok s' → Reachable s'

/-- Sum of all tranche amounts across all accounts: only accounts with a
`_flashBalances` entry can hold tranches. -/
def flashSumAll (s : Ledger) : Nat := alSum trancheSum s.flash

/-- The ledger well-formedness invariant maintained by every entry point. -/
structure Inv (s : Ledger) : Prop where
  fsum : flashSumAll s = s.supply
  link : ∀ a, trancheSum (trOf s a) = balOf s a
  pos : ∀ a, ∀ x ∈ trOf s a, 0 < x.amount
  zeroFlash : trOf s 0 = []


/-! ### Association-list lemmas -/

theorem alGet_alSet_self (m : List (Addr × β)) (a : Addr) (v d : β) :
    alGet (alSet m a v) a d = v := by
  induction m with
  | nil => simp [alGet, alSet]
  | cons p r ih =>
    obtain ⟨b, w⟩ := p
    by_cases h : b = a
    · simp [alGet, alSet, h]
    · simp [alGet, alSet, h, ih]

theorem alGet_alSet_ne (m : List (Addr × β)) {a c : Addr} (h : c ≠ a) (v d : β) :
    alGet (alSet m a v) c d = alGet m c d := by
  induction m with
  | nil =>
    simp only [alSet, alGet]
    rw [if_neg (fun hh : a = c => h hh.symm)]
  | cons p r ih =>
    obtain ⟨b, w⟩ := p
    by_cases hb : b = a
    · subst hb
      simp only [alSet, if_pos rfl, alGet]
      rw [if_neg (fun hh : b = c => h hh.symm), if_neg (fun hh : b = c => h hh.symm)]
    · simp only [alSet, if_neg hb, alGet]
      by_cases hc : b = c
      · simp [hc]
      · simp [hc, ih]

@[simp] theorem alSum_nil (f : β → Nat) : alSum f [] = 0 := rfl

theorem alSum_cons (f : β → Nat) (b : Addr) (w : β) (r : List (Addr × β)) :
    alSum f ((b, w) :: r) = f w + alSum f r := by simp [alSum]

theorem alSum_alSet (f : β → Nat) (m : List (Addr × β)) (a : Addr) (v d : β)
    (hd : f d = 0) :
    alSum f (alSet m a v) + f (alGet m a d) = alSum f m + f v := by
  induction m with
  | nil => simp [alSum, alSet, alGet, hd]
  | cons p r ih =>
    obtain ⟨b, w⟩ := p
    by_cases h : b = a
    · simp only [alSet, if_pos h, alGet, alSum_cons]
      omega
    · simp only [alSet, if_neg h, alGet, alSum_cons]
      omega

theorem alGet_le_alSum (f : β → Nat) (m : List (Addr × β)) (a : Addr) (d : β)
    (hd : f d = 0) : f (alGet m a d) ≤ alSum f m := by
  induction m with
  | nil => simp [alGet, hd]
  | cons p r ih =>
    obtain ⟨b, w⟩ := p
    by_cases h : b = a
    · simp only [alGet, if_pos h, alSum_cons]
      omega
    · simp only [alGet, if_neg h, alSum_cons]
      omega

/-! ### Tranche-list sum lemmas -/

@[simp] theorem trancheSum_nil : trancheSum [] = 0 := rfl

@[simp] theorem trancheSum_cons (x : Tranche) (l : List Tranche) :
    trancheSum (x :: l) = x.amount + trancheSum l := by simp [trancheSum]

theorem trancheSum_append (l₁ l₂ : List Tranche) :
    trancheSum (l₁ ++ l₂) = trancheSum l₁ + trancheSum l₂ := by
  simp [trancheSum]

theorem trancheSum_perm {l l' : List Tranche} (h : List.Perm l l') :
    trancheSum l = trancheSum l' :=
  (h.map Tranche.amount).sum_eq

theorem activeSum_add_expiredSum (t : Nat) (l : List Tranche) :
    activeSum t l + expiredSum t l = trancheSum l := by
  induction l with
  | nil => rfl
  | cons x r ih =>
    by_cases h : t < x.expiresAt
    · simp only [activeSum, expiredSum, if_pos h, if_neg (by omega : ¬ x.expiresAt ≤ t),
        trancheSum_cons]
      omega
    · simp only [activeSum, expiredSum, if_neg h, if_pos (by omega : x.expiresAt ≤ t),
        trancheSum_cons]
      omega

theorem activeSum_eq_filter (t : Nat) (l : List Tranche) :
    activeSum t l = trancheSum (l.filter (fun x => decide (t < x.expiresAt))) := by
  induction l with
  | nil => rfl
  | cons x r ih =>
    by_cases h : t < x.expiresAt
    · simp [activeSum, List.filter_cons, h, ih]
    · simp [activeSum, List.filter_cons, h, ih]

theorem expiredSum_eq_filter (t : Nat) (l : List Tranche) :
    expiredSum t l = trancheSum (l.filter (fun x => decide (x.expiresAt ≤ t))) := by
  induction l with
  | nil => rfl
  | cons x r ih =>
    by_cases h : x.expiresAt ≤ t
    · simp [expiredSum, List.filter_cons, h, ih]
    · simp [expiredSum, List.filter_cons, h, ih]

theorem activeSum_perm {l l' : List Tranche} (t : Nat) (h : List.Perm l l') :
    activeSum t l = activeSum t l' := by
  rw [activeSum_eq_filter, activeSum_eq_filter]
  exact trancheSum_perm (h.filter _)

theorem expiredSum_perm {l l' : List Tranche} (t : Nat) (h : List.Perm l l') :
    expiredSum t l = expiredSum t l' := by
  rw [expiredSum_eq_filter, expiredSum_eq_filter]
  exact trancheSum_perm (h.filter _)

theorem expiredSum_eq_zero (t : Nat) {l : List Tranche}
    (h : ∀ x ∈ l, t < x.expiresAt) : expiredSum t l = 0 := by
  induction l with
  | nil => rfl
  | cons x r ih =>
    have hx := h x (by simp)
    simp only [expiredSum, if_neg (by omega : ¬ x.expiresAt ≤ t)]
    simpa using ih (fun y hy => h y (by simp [hy]))

theorem activeSum_le_trancheSum (t : Nat) (l : List Tranche) :
    activeSum t l ≤ trancheSum l := by
  have := activeSum_add_expiredSum t l
  omega

/-! ### Indexing lemmas -/

theorem getD_irrel {l : List α} {i : Nat} (h : i < l.length) (d d' : α) :
    l.getD i d = l.getD i d' := by
  induction l generalizing i with
  | nil => simp at h
  | cons x r ih =>
    cases i with
    | zero => simp
    | succ j => simpa using ih (by simpa using h) 

theorem getD_mem {l : List α} {i : Nat} (h : i < l.length) (d : α) :
    l.getD i d ∈ l := by
  induction l generalizing i with
  | nil => simp at h
  | cons x r ih =>
    cases i with
    | zero => simp
    | succ j =>
      simp only [List.getD_cons_succ, List.mem_cons]
      exact Or.inr (ih (by simpa using h) )

theorem getD_set_self {l : List α} {i : Nat} (h : i < l.length) (v d : α) :
    (l.set i v).getD i d = v := by
  induction l generalizing i with
  | nil => simp at h
  | cons x r ih =>
    cases i with
    | zero => simp
    | succ j => simpa using ih (by simpa using h)

theorem getD_set_ne {l : List α} {i j : Nat} (h : j ≠ i) (v d : α) :
    (l.set j v).getD i d = l.getD i d := by
  induction l generalizing i j with
  | nil => simp
  | cons x r ih =>
    cases j with
    | zero =>
      cases i with
      | zero => exact absurd rfl h
      | succ k => simp
    | succ j' =>
      cases i with
      | zero => simp
      | succ k => simpa using @ih k j' (by omega)

theorem getD_append_lt {l l' : List α} {i : Nat} (h : i < l.length) (d : α) :
    (l ++ l').getD i d = l.getD i d := by
  induction l generalizing i with
  | nil => simp at h
  | cons x r ih =>
    cases i with
    | zero => simp
    | succ j => simpa using ih (by simpa using h)

theorem take_set_eq (l : List α) (i : Nat) (v : α) :
    (l.set i v).take i = l.take i := by
  induction l generalizing i with
  | nil => simp
  | cons x r ih =>
    cases i with
    | zero => simp
    | succ j => simpa using ih j

theorem drop_set_succ (l : List α) (i : Nat) (v : α) :
    (l.set i v).drop (i + 1) = l.drop (i + 1) := by
  induction l generalizing i with
  | nil => simp
  | cons x r ih =>
    cases i with
    | zero => simp
    | succ j => simpa using ih j

theorem take_succ_getD {l : List α} {i : Nat} (h : i < l.length) (d : α) :
    l.take (i + 1) = l.take i ++ [l.getD i d] := by
  induction l generalizing i with
  | nil => simp at h
  | cons x r ih =>
    cases i with
    | zero => simp
    | succ j =>
      simp only [List.take_succ_cons, List.getD_cons_succ, List.cons_append,
        List.cons.injEq, true_and]
      exact ih (by simpa using h) 

theorem drop_getD_cons {l : List α} {i : Nat} (h : i < l.length) (d : α) :
    l.drop i = l.getD i d :: l.drop (i + 1) := by
  induction l generalizing i with
  | nil => simp at h
  | cons x r ih =>
    cases i with
    | zero => simp
    | succ j => simpa using ih (by simpa using h)

theorem getD_sum_le {l : List Tranche} {i : Nat} (h : i < l.length) (d : Tranche) :
    (l.getD i d).amount ≤ trancheSum l := by
  induction l generalizing i with
  | nil => simp at h
  | cons x r ih =>
    cases i with
    | zero => simp
    | succ j =>
      have := @ih j (by simpa using h)
      simp only [List.getD_cons_succ, trancheSum_cons]
      omega

theorem set_trancheSum {l : List Tranche} {i : Nat} (h : i < l.length)
    (v d : Tranche) :
    trancheSum (l.set i v) + (l.getD i d).amount = trancheSum l + v.amount := by
  induction l generalizing i with
  | nil => simp at h
  | cons x r ih =>
    cases i with
    | zero => simp; omega
    | succ j =>
      have := @ih j (by simpa using h)
      simp only [List.set_cons_succ, trancheSum_cons, List.getD_cons_succ]
      omega

/-! ### getLast and dropLast lemmas -/

theorem getLastD_irrel {l : List α} (h : l ≠ []) (d d' : α) :
    l.getLastD d = l.getLastD d' := by
  cases l with
  | nil => exact absurd rfl h
  | cons x r =>
    cases r with
    | nil => simp
    | cons y t => simp only [List.getLastD_cons]

theorem getLastD_cons_ne {r : List α} (h : r ≠ []) (x d : α) :
    (x :: r).getLastD d = r.getLastD d := by
  rw [List.getLastD_cons]
  exact getLastD_irrel h x d

theorem getLastD_eq_getD (l : List α) (d : α) :
    l.getLastD d = l.getD (l.length - 1) d := by
  induction l with
  | nil => simp
  | cons x r ih =>
    cases r with
    | nil => simp
    | cons y t =>
      rw [getLastD_cons_ne (by simp) x d, ih]
      have hlen : (x :: y :: t).length - 1 = ((y :: t).length - 1) + 1 := by
        simp
      rw [hlen, List.getD_cons_succ]

theorem getLastD_mem {l : List α} (h : l ≠ []) (d : α) : l.getLastD d ∈ l := by
  rw [getLastD_eq_getD]
  exact getD_mem (by cases l with | nil => exact absurd rfl h | cons x r => simp) d

theorem dropLast_cons_ne {r : List α} (h : r ≠ []) (x : α) :
    (x :: r).dropLast = x :: r.dropLast := by
  cases r with
  | nil => exact absurd rfl h
  | cons y t => rfl

theorem perm_getLastD_cons_dropLast {l : List α} (h : l ≠ []) (d : α) :
    List.Perm (l.getLastD d :: l.dropLast) l := by
  induction l with
  | nil => exact absurd rfl h
  | cons x r ih =>
    cases r with
    | nil => simp
    | cons y t =>
      rw [getLastD_cons_ne (by simp) x d, dropLast_cons_ne (by simp) x]
      exact (List.Perm.swap x ((y :: t).getLastD d) (y :: t).dropLast).trans
        ((ih (by simp)).cons x)

/-! ### removeSwap lemmas -/

theorem length_removeSwap {l : List Tranche} {i : Nat} (h : i < l.length) :
    (removeSwap l i).length = l.length - 1 := by
  simp [removeSwap]

theorem removeSwap_cons_succ {r : List Tranche} {j : Nat} (h : j < r.length)
    (x : Tranche) :
    removeSwap (x :: r) (j + 1) = x :: removeSwap r j := by
  have hr : r ≠ [] := by cases r with | nil => simp at h | cons _ _ => simp
  have hset : (x :: r).set (j + 1) ((x :: r).getLastD dflt)
      = x :: r.set j (r.getLastD dflt) := by
    rw [getLastD_cons_ne hr x dflt, List.set_cons_succ]
  have hne : r.set j (r.getLastD dflt) ≠ [] := by
    cases r with
    | nil => exact absurd rfl hr
    | cons y t => cases j <;> simp
  rw [removeSwap, hset, dropLast_cons_ne hne x, removeSwap]

theorem removeSwap_cons_zero {r : List Tranche} (h : r ≠ []) (x : Tranche) :
    removeSwap (x :: r) 0 = r.getLastD dflt :: r.dropLast := by
  rw [removeSwap, getLastD_cons_ne h x dflt, List.set_cons_zero,
    dropLast_cons_ne h]

theorem removeSwap_singleton (x : Tranche) : removeSwap [x] 0 = [] := rfl

theorem removeSwap_take {l : List Tranche} {i : Nat} (h : i < l.length) :
    (removeSwap l i).take i = l.take i := by
  induction l generalizing i with
  | nil => simp at h
  | cons x r ih =>
    cases i with
    | zero => simp
    | succ j =>
      have hj : j < r.length := by simpa using h
      rw [removeSwap_cons_succ hj x, List.take_succ_cons, List.take_succ_cons, ih hj]

theorem removeSwap_drop_perm {l : List Tranche} {i : Nat} (h : i < l.length) :
    List.Perm ((removeSwap l i).drop i) (l.drop (i + 1)) := by
  induction l generalizing i with
  | nil => simp at h
  | cons x r ih =>
    cases i with
    | zero =>
      cases r with
      | nil => simp [removeSwap_singleton]
      | cons y t =>
        rw [removeSwap_cons_zero (by simp) x, List.drop_zero, List.drop_succ_cons,
          List.drop_zero]
        exact perm_getLastD_cons_dropLast (by simp) dflt
    | succ j =>
      have hj : j < r.length := by simpa using h
      rw [removeSwap_cons_succ hj x, List.drop_succ_cons, List.drop_succ_cons]
      exact ih hj

theorem removeSwap_perm {l : List Tranche} {i : Nat} (h : i < l.length) :
    List.Perm (removeSwap l i) (l.take i ++ l.drop (i + 1)) := by
  have h1 : removeSwap l i = (removeSwap l i).take i ++ (removeSwap l i).drop i :=
    (List.take_append_drop i (removeSwap l i)).symm
  rw [h1, removeSwap_take h]
  exact List.Perm.append_left (l.take i) (removeSwap_drop_perm h)

theorem trancheSum_removeSwap {l : List Tranche} {i : Nat} (h : i < l.length)
    (d : Tranche) :
    trancheSum (removeSwap l i) + (l.getD i d).amount = trancheSum l := by
  have h1 := trancheSum_perm (removeSwap_perm h)
  have h2 : l = l.take i ++ l.drop i := (List.take_append_drop i l).symm
  have h3 := drop_getD_cons h d
  calc trancheSum (removeSwap l i) + (l.getD i d).amount
      = trancheSum (l.take i) + trancheSum (l.drop (i+1)) + (l.getD i d).amount := by
        rw [h1, trancheSum_append]
    _ = trancheSum l := by
        conv_rhs => rw [h2]
        rw [trancheSum_append, h3, trancheSum_cons]
        omega

theorem mem_removeSwap {l : List Tranche} {i : Nat} (h : i < l.length)
    {y : Tranche} (hy : y ∈ removeSwap l i) : y ∈ l := by
  have := (removeSwap_perm h).mem_iff.mp hy
  rcases List.mem_append.mp this with h1 | h1
  · exact List.take_subset i l h1
  · exact List.drop_subset (i+1) l h1

/-! ### appendList lemmas -/

theorem trancheSum_appendList (l : List Tranche) (a e : Nat) :
    trancheSum (appendList l a e) = trancheSum l + a := by
  unfold appendList
  by_cases h : 0 < l.length ∧ (l.getLastD dflt).expiresAt = e
  · rw [if_pos h]
    have hlen : l.length - 1 < l.length := by omega
    have := set_trancheSum hlen ⟨(l.getLastD dflt).amount + a, (l.getLastD dflt).expiresAt⟩ dflt
    rw [← getLastD_eq_getD l dflt] at this
    simp only at this
    omega
  · rw [if_neg h, trancheSum_append]
    simp

theorem length_appendList_ge (l : List Tranche) (a e : Nat) :
    l.length ≤ (appendList l a e).length := by
  unfold appendList
  by_cases h : 0 < l.length ∧ (l.getLastD dflt).expiresAt = e
  · rw [if_pos h]; simp
  · rw [if_neg h]; simp

theorem getD_appendList_lt {l : List Tranche} {i : Nat} (h : i + 1 < l.length)
    (a e : Nat) (d : Tranche) : (appendList l a e).getD i d = l.getD i d := by
  unfold appendList
  by_cases hc : 0 < l.length ∧ (l.getLastD dflt).expiresAt = e
  · rw [if_pos hc]
    exact getD_set_ne (by omega) _ d
  · rw [if_neg hc]
    exact getD_append_lt (by omega) d

theorem getD_appendList_mono {l : List Tranche} {i : Nat} (h : i < l.length)
    (a e : Nat) (d : Tranche) :
    (l.getD i d).amount ≤ ((appendList l a e).getD i d).amount ∧
      ((appendList l a e).getD i d).amount ≤ (l.getD i d).amount + a := by
  unfold appendList
  by_cases hc : 0 < l.length ∧ (l.getLastD dflt).expiresAt = e
  · rw [if_pos hc]
    by_cases hi : i = l.length - 1
    · subst hi
      rw [getD_set_self (by omega) _ d]
      have hd : l.getD (l.length - 1) d = l.getLastD dflt := by
        rw [getD_irrel (by omega) d dflt, ← getLastD_eq_getD]
      rw [hd]
      constructor <;> simp
    · rw [getD_set_ne (by omega) _ d]
      omega
  · rw [if_neg hc, getD_append_lt h d]
    omega

theorem appendList_pos {l : List Tranche} (hl : ∀ x ∈ l, 0 < x.amount)
    {a : Nat} (ha : 0 < a) (e : Nat) :
    ∀ y ∈ appendList l a e, 0 < y.amount := by
  intro y hy
  unfold appendList at hy
  by_cases hc : 0 < l.length ∧ (l.getLastD dflt).expiresAt = e
  · rw [if_pos hc] at hy
    rcases List.mem_or_eq_of_mem_set hy with h1 | h1
    · exact hl y h1
    · subst h1; simp; omega
  · rw [if_neg hc] at hy
    rcases List.mem_append.mp hy with h1 | h1
    · exact hl y h1
    · simp at h1; subst h1; simpa using ha

theorem appendList_singleton (x : Tranche) (a : Nat) :
    appendList [x] a x.expiresAt = [⟨x.amount + a, x.expiresAt⟩] := by
  unfold appendList
  rw [if_pos (by simp)]
  rfl


/-! ### syncGo correctness -/

theorem syncGo_spec (t : Nat) :
    ∀ n (l : List Tranche) (i b : Nat), n = l.length - i → i ≤ l.length →
      List.Perm (syncGo t n l i b).1
          (l.take i ++ (l.drop i).filter (fun x => decide (t < x.expiresAt))) ∧
      (syncGo t n l i b).2 = b + expiredSum t (l.drop i) := by
  intro n
  induction n with
  | zero =>
    intro l i b hn hi
    have hil : i = l.length := by omega
    subst hil
    simp [syncGo, List.take_length, List.drop_length, expiredSum]
  | succ n ih =>
    intro l i b hn hi
    have hilt : i < l.length := by omega
    rw [syncGo, if_pos hilt]
    by_cases hexp : (l.getD i dflt).expiresAt ≤ t
    · rw [if_pos hexp]
      have hlen : (removeSwap l i).length = l.length - 1 := length_removeSwap hilt
      obtain ⟨hperm, hsum⟩ :=
        ih (removeSwap l i) i (b + (l.getD i dflt).amount) (by omega) (by omega)
      have hdrop : List.Perm ((removeSwap l i).drop i) (l.drop (i + 1)) :=
        removeSwap_drop_perm hilt
      have hdropfull : l.drop i = l.getD i dflt :: l.drop (i + 1) := drop_getD_cons hilt dflt
      constructor
      · refine hperm.trans ?_
        rw [removeSwap_take hilt, hdropfull, List.filter_cons,
          if_neg (by simpa using (by omega : ¬ t < (l.getD i dflt).expiresAt))]
        exact List.Perm.append_left _ (hdrop.filter _)
      · rw [hsum, expiredSum_perm t hdrop, hdropfull]
        simp only [expiredSum, if_pos hexp]
        omega
    · rw [if_neg hexp]
      obtain ⟨hperm, hsum⟩ := ih l (i + 1) b (by omega) (by omega)
      have hdropfull : l.drop i = l.getD i dflt :: l.drop (i + 1) := drop_getD_cons hilt dflt
      constructor
      · refine hperm.trans ?_
        rw [take_succ_getD hilt dflt, hdropfull, List.filter_cons,
          if_pos (by simpa using (by omega : t < (l.getD i dflt).expiresAt))]
        rw [List.append_assoc, List.singleton_append]
      · rw [hsum, hdropfull]
        simp only [expiredSum, if_neg hexp]
        omega

theorem syncList_perm (t : Nat) (l : List Tranche) :
    List.Perm (syncList t l).1 (l.filter (fun x => decide (t < x.expiresAt))) := by
  have := (syncGo_spec t l.length l 0 0 (by omega) (by omega)).1
  simpa using this

theorem syncList_burned (t : Nat) (l : List Tranche) :
    (syncList t l).2 = expiredSum t l := by
  have := (syncGo_spec t l.length l 0 0 (by omega) (by omega)).2
  simpa using this

theorem trancheSum_syncList (t : Nat) (l : List Tranche) :
    trancheSum (syncList t l).1 = activeSum t l := by
  rw [trancheSum_perm (syncList_perm t l), ← activeSum_eq_filter]

theorem mem_syncList (t : Nat) (l : List Tranche) :
    ∀ x ∈ (syncList t l).1, x ∈ l ∧ t < x.expiresAt := by
  intro x hx
  have := (syncList_perm t l).mem_iff.mp hx
  have h2 := List.mem_filter.mp this
  exact ⟨h2.1, by simpa using h2.2⟩

theorem syncList_all_active (t : Nat) {l : List Tranche}
    (h : ∀ x ∈ l, t < x.expiresAt) : (syncList t l).2 = 0 := by
  rw [syncList_burned]
  exact expiredSum_eq_zero t h

/-! ### Ledger component lemmas -/

@[simp] theorem trOf_setTr_self (s : Ledger) (a : Addr) (l : List Tranche) :
    trOf (setTr s a l) a = l := alGet_alSet_self s.flash a l []

theorem trOf_setTr_ne {c a : Addr} (h : c ≠ a) (s : Ledger) (l : List Tranche) :
    trOf (setTr s a l) c = trOf s c := alGet_alSet_ne s.flash h l []

@[simp] theorem bal_setTr (s : Ledger) (a : Addr) (l : List Tranche) :
    (setTr s a l).bal = s.bal := rfl

@[simp] theorem supply_setTr (s : Ledger) (a : Addr) (l : List Tranche) :
    (setTr s a l).supply = s.supply := rfl

@[simp] theorem events_setTr (s : Ledger) (a : Addr) (l : List Tranche) :
    (setTr s a l).events = s.events := rfl

@[simp] theorem balOf_setTr (s : Ledger) (a c : Addr) (l : List Tranche) :
    balOf (setTr s a l) c = balOf s c := rfl

@[simp] theorem balOf_setBal_self (s : Ledger) (a : Addr) (v : Nat) :
    balOf (setBal s a v) a = v := alGet_alSet_self s.bal a v 0

theorem balOf_setBal_ne {c a : Addr} (h : c ≠ a) (s : Ledger) (v : Nat) :
    balOf (setBal s a v) c = balOf s c := alGet_alSet_ne s.bal h v 0

@[simp] theorem flash_setBal (s : Ledger) (a : Addr) (v : Nat) :
    (setBal s a v).flash = s.flash := rfl

@[simp] theorem trOf_setBal (s : Ledger) (a c : Addr) (v : Nat) :
    trOf (setBal s a v) c = trOf s c := rfl

@[simp] theorem supply_setBal (s : Ledger) (a : Addr) (v : Nat) :
    (setBal s a v).supply = s.supply := rfl

@[simp] theorem events_setBal (s : Ledger) (a : Addr) (v : Nat) :
    (setBal s a v).events = s.events := rfl

@[simp] theorem flash_emit (s : Ledger) (e : Event) : (emit s e).flash = s.flash := rfl

@[simp] theorem trOf_emit (s : Ledger) (e : Event) (a : Addr) :
    trOf (emit s e) a = trOf s a := rfl

@[simp] theorem bal_emit (s : Ledger) (e : Event) : (emit s e).bal = s.bal := rfl

@[simp] theorem balOf_emit (s : Ledger) (e : Event) (a : Addr) :
    balOf (emit s e) a = balOf s a := rfl

@[simp] theorem supply_emit (s : Ledger) (e : Event) : (emit s e).supply = s.supply := rfl

@[simp] theorem events_emit (s : Ledger) (e : Event) :
    (emit s e).events = s.events ++ [e] := rfl

theorem flashSumAll_setTr (s : Ledger) (a : Addr) (l : List Tranche) :
    flashSumAll (setTr s a l) + trancheSum (trOf s a) = flashSumAll s + trancheSum l :=
  alSum_alSet trancheSum s.flash a l [] rfl

theorem trOf_le_flashSumAll (s : Ledger) (a : Addr) :
    trancheSum (trOf s a) ≤ flashSumAll s :=
  alGet_le_alSum trancheSum s.flash a [] rfl

@[simp] theorem flashSumAll_setBal (s : Ledger) (a : Addr) (v : Nat) :
    flashSumAll (setBal s a v) = flashSumAll s := rfl

@[simp] theorem flashSumAll_emit (s : Ledger) (e : Event) :
    flashSumAll (emit s e) = flashSumAll s := rfl

/-! ### erc20Update lemmas -/

@[simp] theorem balOf_withSupply (s : Ledger) (n : Nat) (a : Addr) :
    balOf { s with supply := n } a = balOf s a := rfl

@[simp] theorem trOf_withSupply (s : Ledger) (n : Nat) (a : Addr) :
    trOf { s with supply := n } a = trOf s a := rfl

@[simp] theorem flash_withSupply (s : Ledger) (n : Nat) :
    ({ s with supply := n } : Ledger).flash = s.flash := rfl

@[simp] theorem events_withSupply (s : Ledger) (n : Nat) :
    ({ s with supply := n } : Ledger).events = s.events := rfl

@[simp] theorem supply_withSupply (s : Ledger) (n : Nat) :
    ({ s with supply := n } : Ledger).supply = n := rfl

theorem erc20Update_mint (s : Ledger) {dst : Addr} (hdst : dst ≠ 0) (v : Nat) :
    ∃ s', erc20Update s 0 dst v = Except.ok s' ∧
      s'.flash = s.flash ∧ s'.supply = s.supply + v ∧
      balOf s' dst = balOf s dst + v ∧ (∀ c, c ≠ dst → balOf s' c = balOf s c) ∧
      s'.events = s.events ++ [Event.transferred 0 dst v] := by
  refine ⟨_, by rw [erc20Update, if_pos rfl], ?_, ?_, ?_, ?_, ?_⟩
  · rw [erc20Credit, if_neg hdst]; rfl
  · rw [erc20Credit, if_neg hdst]; rfl
  · rw [erc20Credit, if_neg hdst]
    simp only [balOf_emit, balOf_withSupply]
    exact balOf_setBal_self _ _ _
  · intro c hc
    rw [erc20Credit, if_neg hdst]
    simp only [balOf_emit, balOf_withSupply]
    exact balOf_setBal_ne hc _ _
  · rw [erc20Credit, if_neg hdst]; rfl

theorem erc20Update_burn (s : Ledger) {a : Addr} (ha : a ≠ 0) {v : Nat}
    (hv : v ≤ balOf s a) :
    ∃ s', erc20Update s a 0 v = Except.ok s' ∧
      s'.flash = s.flash ∧ s'.supply = s.supply - v ∧
      balOf s' a + v = balOf s a ∧ (∀ c, c ≠ a → balOf s' c = balOf s c) ∧
      s'.events = s.events ++ [Event.transferred a 0 v] := by
  refine ⟨_, by rw [erc20Update, if_neg ha, if_neg (by omega)], ?_, ?_, ?_, ?_, ?_⟩
  · rw [erc20Credit, if_pos rfl]; rfl
  · rw [erc20Credit, if_pos rfl]; rfl
  · rw [erc20Credit, if_pos rfl]
    simp only [balOf_emit, balOf_withSupply, balOf_setBal_self]
    omega
  · intro c hc
    rw [erc20Credit, if_pos rfl]
    simp only [balOf_emit, balOf_withSupply]
    exact balOf_setBal_ne hc s _
  · rw [erc20Credit, if_pos rfl]; rfl

theorem erc20Update_move (s : Ledger) {f dst : Addr} (hf : f ≠ 0) (hdst : dst ≠ 0)
    {v : Nat} (hv : v ≤ balOf s f) :
    ∃ s', erc20Update s f dst v = Except.ok s' ∧
      s'.flash = s.flash ∧ s'.supply = s.supply ∧
      (f ≠ dst → balOf s' f + v = balOf s f ∧ balOf s' dst = balOf s dst + v) ∧
      (f = dst → ∀ c, balOf s' c = balOf s c) ∧
      (∀ c, c ≠ f → c ≠ dst → balOf s' c = balOf s c) ∧
      s'.events = s.events ++ [Event.transferred f dst v] := by
  refine ⟨_, by rw [erc20Update, if_neg hf, if_neg (by omega)], ?_, ?_, ?_, ?_, ?_, ?_⟩
  · rw [erc20Credit, if_neg hdst]; rfl
  · rw [erc20Credit, if_neg hdst]; rfl
  · intro hne
    rw [erc20Credit, if_neg hdst]
    constructor
    · simp only [balOf_emit]
      rw [balOf_setBal_ne (show f ≠ dst from hne) _ _, balOf_setBal_self]
      omega
    · simp only [balOf_emit]
      rw [balOf_setBal_self, balOf_setBal_ne (show dst ≠ f from fun hh => hne hh.symm) s _]
  · intro heq c
    subst heq
    rw [erc20Credit, if_neg hdst]
    by_cases hc : c = f
    · subst hc
      simp only [balOf_emit]
      rw [balOf_setBal_self, balOf_setBal_self]
      omega
    · simp only [balOf_emit]
      rw [balOf_setBal_ne hc _ _, balOf_setBal_ne hc _ _]
  · intro c hcf hcd
    rw [erc20Credit, if_neg hdst]
    simp only [balOf_emit]
    rw [balOf_setBal_ne hcd _ _, balOf_setBal_ne hcf _ _]
  · rw [erc20Credit, if_neg hdst]; rfl

theorem erc20Update_fail (s : Ledger) {f : Addr} (dst : Addr) (hf : f ≠ 0) {v : Nat}
    (hv : balOf s f < v) :
    erc20Update s f dst v = Except.error "ERC20InsufficientBalance" := by
  rw [erc20Update, if_neg hf, if_pos hv]


/-! ### syncExpiry specification -/

theorem trOf_congr {s1 s2 : Ledger} (h : s1.flash = s2.flash) (c : Addr) :
    trOf s1 c = trOf s2 c := by rw [trOf, trOf, h]

theorem flashSumAll_congr {s1 s2 : Ledger} (h : s1.flash = s2.flash) :
    flashSumAll s1 = flashSumAll s2 := by rw [flashSumAll, flashSumAll, h]

/-- Everything `_syncExpiry(account)` guarantees about the poststate. -/
structure SyncOut (t : Nat) (s : Ledger) (a : Addr) (s' : Ledger) : Prop where
  trEq : trOf s' a = (syncList t (trOf s a)).1
  frame : ∀ c, c ≠ a → trOf s' c = trOf s c
  balA : balOf s' a = activeSum t (trOf s a)
  balFrame : ∀ c, c ≠ a → balOf s' c = balOf s c
  supplyEq : s'.supply + expiredSum t (trOf s a) = s.supply
  eventsEq : s'.events = s.events ++
    (if expiredSum t (trOf s a) = 0 then []
     else [Event.transferred a 0 (expiredSum t (trOf s a)),
           Event.expiredBalanceBurned a (expiredSum t (trOf s a)) t])
  inv : Inv s'

theorem syncExpiry_ok {s : Ledger} (hInv : Inv s) (t : Nat) (a : Addr) :
    ∃ s', syncExpiry t s a = Except.ok (s', expiredSum t (trOf s a)) ∧
      SyncOut t s a s' := by
  have hburn : (syncList t (trOf s a)).2 = expiredSum t (trOf s a) := syncList_burned _ _
  have hsum : trancheSum (syncList t (trOf s a)).1 = activeSum t (trOf s a) :=
    trancheSum_syncList _ _
  have hlinka : trancheSum (trOf s a) = balOf s a := hInv.link a
  have hae := activeSum_add_expiredSum t (trOf s a)
  have hfs : trancheSum (trOf s a) ≤ flashSumAll s := trOf_le_flashSumAll s a
  have hfsum := hInv.fsum
  have hfset := flashSumAll_setTr s a (syncList t (trOf s a)).1
  by_cases hpos : 0 < (syncList t (trOf s a)).2
  · -- something was burned: a cannot be the zero address
    have ha : a ≠ 0 := by
      intro h0
      subst h0
      rw [hInv.zeroFlash] at hpos
      simp [syncList, syncGo] at hpos
    have hble : (syncList t (trOf s a)).2 ≤ balOf (setTr s a (syncList t (trOf s a)).1) a := by
      rw [balOf_setTr]
      omega
    obtain ⟨s2, he, hfl, hsup, hbalA, hbalF, hev⟩ :=
      erc20Update_burn (setTr s a (syncList t (trOf s a)).1) ha hble
    refine ⟨emit s2 (Event.expiredBalanceBurned a (syncList t (trOf s a)).2 t), ?_, ?_⟩
    · rw [syncExpiry]
      simp only [← hburn, if_pos hpos, he]
    · have htr2 : ∀ c, trOf s2 c = trOf (setTr s a (syncList t (trOf s a)).1) c :=
        trOf_congr hfl
      have hfs2 : flashSumAll s2 = flashSumAll (setTr s a (syncList t (trOf s a)).1) :=
        flashSumAll_congr hfl
      have hbalA' : balOf s2 a + (syncList t (trOf s a)).2 = balOf s a := by
        rw [balOf_setTr] at hbalA
        exact hbalA
      refine ⟨?_, ?_, ?_, ?_, ?_, ?_, ?_⟩
      · rw [trOf_emit, htr2 a, trOf_setTr_self]
      · intro c hc
        rw [trOf_emit, htr2 c, trOf_setTr_ne hc]
      · rw [balOf_emit]
        omega
      · intro c hc
        rw [balOf_emit, hbalF c hc, balOf_setTr]
      · rw [supply_emit, hsup, supply_setTr]
        omega
      · rw [events_emit, hev, events_setTr, if_neg (by omega), hburn]
        simp
      · refine ⟨?_, ?_, ?_, ?_⟩
        · rw [flashSumAll_emit, hfs2, supply_emit, hsup, supply_setTr]
          omega
        · intro c
          by_cases hc : c = a
          · subst hc
            rw [trOf_emit, htr2 c, trOf_setTr_self, balOf_emit, hsum]
            omega
          · rw [trOf_emit, htr2 c, trOf_setTr_ne hc, balOf_emit, hbalF c hc, balOf_setTr]
            exact hInv.link c
        · intro c x hx
          by_cases hc : c = a
          · subst hc
            rw [trOf_emit, htr2 c, trOf_setTr_self] at hx
            exact hInv.pos c x (mem_syncList t (trOf s c) x hx).1
          · rw [trOf_emit, htr2 c, trOf_setTr_ne hc] at hx
            exact hInv.pos c x hx
        · rw [trOf_emit, htr2 0, trOf_setTr_ne (fun hh => ha hh.symm)]
          exact hInv.zeroFlash
  · -- nothing was burned
    have hb0 : (syncList t (trOf s a)).2 = 0 := by omega
    have hexp0 : expiredSum t (trOf s a) = 0 := by rw [← hburn, hb0]
    refine ⟨setTr s a (syncList t (trOf s a)).1, ?_, ?_⟩
    · rw [syncExpiry]
      simp only [← hburn, if_neg hpos]
    · refine ⟨?_, ?_, ?_, ?_, ?_, ?_, ?_⟩
      · rw [trOf_setTr_self]
      · intro c hc
        rw [trOf_setTr_ne hc]
      · rw [balOf_setTr]
        omega
      · intro c hc
        rw [balOf_setTr]
      · rw [supply_setTr]
        omega
      · rw [events_setTr, if_pos hexp0]
        simp
      · refine ⟨?_, ?_, ?_, ?_⟩
        · rw [supply_setTr]
          omega
        · intro c
          by_cases hc : c = a
          · subst hc
            rw [trOf_setTr_self, balOf_setTr, hsum]
            omega
          · rw [trOf_setTr_ne hc, balOf_setTr]
            exact hInv.link c
        · intro c x hx
          by_cases hc : c = a
          · subst hc
            rw [trOf_setTr_self] at hx
            exact hInv.pos c x (mem_syncList t (trOf s c) x hx).1
          · rw [trOf_setTr_ne hc] at hx
            exact hInv.pos c x hx
        · by_cases h0 : (0 : Addr) = a
          · rw [← h0, trOf_setTr_self, ← h0] at *
            rw [hInv.zeroFlash] at *
            rfl
          · rw [trOf_setTr_ne h0]
            exact hInv.zeroFlash


/-! ### moveStep analysis -/

theorem eq_singleton_of_length_one {l : List α} (h : l.length = 1) (d : α) :
    l = [l.getD 0 d] := by
  cases l with
  | nil => simp at h
  | cons x r =>
    cases r with
    | nil => simp
    | cons y t => simp at h

theorem trOf_appendTranche_self (s : Ledger) (a : Addr) (amount e : Nat) :
    trOf (appendTranche s a amount e) a = appendList (trOf s a) amount e := by
  rw [appendTranche, trOf_setTr_self]

theorem trOf_appendTranche_ne {c a : Addr} (h : c ≠ a) (s : Ledger) (amount e : Nat) :
    trOf (appendTranche s a amount e) c = trOf s c := by
  rw [appendTranche, trOf_setTr_ne h]

theorem flashSumAll_appendTranche (s : Ledger) (a : Addr) (amount e : Nat) :
    flashSumAll (appendTranche s a amount e) = flashSumAll s + amount := by
  have h := flashSumAll_setTr s a (appendList (trOf s a) amount e)
  rw [trancheSum_appendList] at h
  rw [appendTranche]
  omega

@[simp] theorem bal_appendTranche (s : Ledger) (a : Addr) (amount e : Nat) :
    (appendTranche s a amount e).bal = s.bal := rfl

@[simp] theorem supply_appendTranche (s : Ledger) (a : Addr) (amount e : Nat) :
    (appendTranche s a amount e).supply = s.supply := rfl

@[simp] theorem events_appendTranche (s : Ledger) (a : Addr) (amount e : Nat) :
    (appendTranche s a amount e).events = s.events := rfl

theorem moveStep_facts (s : Ledger) (f dst : Addr) {rem i : Nat}
    (hrem : 0 < rem) (hi : i < (trOf s f).length) :
    ∃ tk s' i',
      moveStep s f dst rem i = (s', rem - tk, i') ∧
      tk ≤ rem ∧ tk ≤ ((trOf s f).getD i dflt).amount ∧
      (0 < ((trOf s f).getD i dflt).amount → 0 < tk) ∧
      s'.bal = s.bal ∧ s'.supply = s.supply ∧ s'.events = s.events ∧
      (∀ c, c ≠ f → c ≠ dst → trOf s' c = trOf s c) ∧
      flashSumAll s' = flashSumAll s ∧
      (f ≠ dst → trancheSum (trOf s' f) + tk = trancheSum (trOf s f) ∧
                 trancheSum (trOf s' dst) = trancheSum (trOf s dst) + tk) ∧
      (f = dst → trancheSum (trOf s' f) = trancheSum (trOf s f)) ∧
      ((∀ x ∈ trOf s f, 0 < x.amount) → (∀ x ∈ trOf s dst, 0 < x.amount) →
        (∀ x ∈ trOf s' f, 0 < x.amount) ∧ (∀ x ∈ trOf s' dst, 0 < x.amount)) ∧
      (i' = i ∨ (i' = i + 1 ∧ (i = 0 → rem ≤ trancheSum (trOf s f) → rem = tk))) := by
  obtain ⟨x, hxdef⟩ : ∃ x, (trOf s f).getD i dflt = x := ⟨_, rfl⟩
  obtain ⟨tk, htkdef⟩ : ∃ tk, (if x.amount ≤ rem then x.amount else rem) = tk := ⟨_, rfl⟩
  obtain ⟨s1, hs1def⟩ : ∃ s1, appendTranche s dst tk x.expiresAt = s1 := ⟨_, rfl⟩
  obtain ⟨y, hydef⟩ : ∃ y, (trOf s1 f).getD i dflt = y := ⟨_, rfl⟩
  obtain ⟨l2, hl2def⟩ : ∃ l2, (trOf s1 f).set i ⟨y.amount - tk, y.expiresAt⟩ = l2 := ⟨_, rfl⟩
  have hstep : moveStep s f dst rem i =
      if y.amount - tk = 0 then (setTr s1 f (removeSwap l2 i), rem - tk, i)
      else (setTr s1 f l2, rem - tk, i + 1) := by
    rw [moveStep]
    simp only [hxdef, htkdef, hs1def, hydef, hl2def]
  have htkr : tk ≤ rem := by rw [← htkdef]; split <;> omega
  have htkx : tk ≤ x.amount := by rw [← htkdef]; split <;> omega
  have htkpos : 0 < x.amount → 0 < tk := by
    intro h
    rw [← htkdef]
    split <;> omega
  -- facts about s1
  have hbal1 : s1.bal = s.bal := by rw [← hs1def]; rfl
  have hsup1 : s1.supply = s.supply := by rw [← hs1def]; rfl
  have hev1 : s1.events = s.events := by rw [← hs1def]; rfl
  have htr1dst : trOf s1 dst = appendList (trOf s dst) tk x.expiresAt := by
    rw [← hs1def, trOf_appendTranche_self]
  have htr1ne : ∀ c, c ≠ dst → trOf s1 c = trOf s c := by
    intro c hc
    rw [← hs1def, trOf_appendTranche_ne hc]
  have hfsum1 : flashSumAll s1 = flashSumAll s + tk := by
    rw [← hs1def, flashSumAll_appendTranche]
  have htr1f : f ≠ dst → trOf s1 f = trOf s f := fun h => htr1ne f h
  have htr1falias : f = dst → trOf s1 f = appendList (trOf s f) tk x.expiresAt := by
    intro h
    rw [h] at *
    exact htr1dst
  have hlen1 : i < (trOf s1 f).length := by
    by_cases hfd : f = dst
    · have := htr1falias hfd
      rw [this]
      have := length_appendList_ge (trOf s f) tk x.expiresAt
      omega
    · rw [htr1f hfd]
      exact hi
  have hsum1f : trancheSum (trOf s1 f) =
      trancheSum (trOf s f) + (if f = dst then tk else 0) := by
    by_cases hfd : f = dst
    · rw [htr1falias hfd, trancheSum_appendList, if_pos hfd]
    · rw [htr1f hfd, if_neg hfd]
      omega
  -- y bounds
  have hyx : x.amount ≤ y.amount ∧ y.amount ≤ x.amount + tk := by
    by_cases hfd : f = dst
    · have h1 := htr1falias hfd
      have h2 := getD_appendList_mono hi tk x.expiresAt dflt
      rw [hxdef] at h2
      rw [← hydef, h1]
      exact h2
    · rw [← hydef, htr1f hfd, hxdef]
      omega
  have htky : tk ≤ y.amount := by omega
  -- y = x in the common cases
  have hyeqx : f ≠ dst ∨ i + 1 < (trOf s f).length → y = x := by
    intro h
    rcases h with h | h
    · rw [← hydef, htr1f h, hxdef]
    · by_cases hfd : f = dst
      · rw [← hydef, htr1falias hfd, getD_appendList_lt h, hxdef]
      · rw [← hydef, htr1f hfd, hxdef]
  -- sums of l2
  have hlenl2 : l2.length = (trOf s1 f).length := by rw [← hl2def, List.length_set]
  have hsuml2 : trancheSum l2 + tk = trancheSum (trOf s1 f) := by
    have h1 := set_trancheSum hlen1 ⟨y.amount - tk, y.expiresAt⟩ dflt
    rw [hydef, hl2def] at h1
    simp only at h1
    omega
  have hgetl2 : l2.getD i dflt = ⟨y.amount - tk, y.expiresAt⟩ := by
    rw [← hl2def]
    exact getD_set_self hlen1 _ dflt
  -- membership of l2 and removeSwap l2
  have hmeml2 : ∀ z ∈ l2, z ∈ trOf s1 f ∨ z = ⟨y.amount - tk, y.expiresAt⟩ := by
    intro z hz
    rw [← hl2def] at hz
    exact List.mem_or_eq_of_mem_set hz
  have hmemrs : ∀ z ∈ removeSwap l2 i, z ∈ trOf s1 f := by
    intro z hz
    have hperm := removeSwap_perm (by omega : i < l2.length)
    have := hperm.mem_iff.mp hz
    rcases List.mem_append.mp this with h1 | h1
    · rw [← hl2def, take_set_eq] at h1
      exact List.take_subset i _ h1
    · rw [← hl2def, drop_set_succ] at h1
      exact List.drop_subset (i + 1) _ h1
  -- positivity propagation into trOf s1
  have hpos1 : (∀ z ∈ trOf s f, 0 < z.amount) → (∀ z ∈ trOf s dst, 0 < z.amount) →
      (∀ z ∈ trOf s1 f, 0 < z.amount) ∧ (∀ z ∈ trOf s1 dst, 0 < z.amount) := by
    intro hpf hpd
    have hxpos : 0 < x.amount := by
      rw [← hxdef]
      exact hpf _ (getD_mem hi dflt)
    have htkpos' : 0 < tk := htkpos hxpos
    have hdst1 : ∀ z ∈ trOf s1 dst, 0 < z.amount := by
      rw [htr1dst]
      exact appendList_pos hpd htkpos' x.expiresAt
    refine ⟨?_, hdst1⟩
    by_cases hfd : f = dst
    · rw [hfd]
      exact hdst1
    · rw [htr1f hfd]
      exact hpf
  by_cases hzero : y.amount - tk = 0
  · -- pop branch: swap-with-last removal of the emptied slot
    rw [if_pos hzero] at hstep
    have hsumrs : trancheSum (removeSwap l2 i) = trancheSum l2 := by
      have h1 := trancheSum_removeSwap (by omega : i < l2.length) dflt
      rw [hgetl2] at h1
      simp only at h1
      omega
    refine ⟨tk, setTr s1 f (removeSwap l2 i), i, hstep, htkr, by rw [hxdef]; exact htkx,
      by rw [hxdef]; exact htkpos, by simp [hbal1], by simp [hsup1], by simp [hev1],
      ?_, ?_, ?_, ?_, ?_, Or.inl rfl⟩
    · intro c hcf hcd
      rw [trOf_setTr_ne hcf, htr1ne c hcd]
    · have h1 := flashSumAll_setTr s1 f (removeSwap l2 i)
      rw [hsumrs] at h1
      omega
    · intro hfd
      constructor
      · rw [trOf_setTr_self, hsumrs]
        rw [if_neg hfd] at hsum1f
        omega
      · rw [trOf_setTr_ne (fun hh : dst = f => hfd hh.symm), htr1dst, trancheSum_appendList]
    · intro hfd
      rw [trOf_setTr_self, hsumrs]
      rw [if_pos hfd] at hsum1f
      omega
    · intro hpf hpd
      obtain ⟨hp1f, hp1d⟩ := hpos1 hpf hpd
      have hmain : ∀ z ∈ removeSwap l2 i, 0 < z.amount := fun z hz => hp1f z (hmemrs z hz)
      constructor
      · rw [trOf_setTr_self]
        exact hmain
      · by_cases hfd : f = dst
        · rw [← hfd, trOf_setTr_self]
          exact hmain
        · rw [trOf_setTr_ne (fun hh : dst = f => hfd hh.symm)]
          exact hp1d
  · -- advance branch: positive residue stays, i increments
    rw [if_neg hzero] at hstep
    have hremtk : i = 0 → rem ≤ trancheSum (trOf s f) → rem = tk := by
      intro hizero hremsum
      by_cases hyx' : y = x
      · rw [hyx'] at hzero
        rw [← htkdef] at hzero ⊢
        by_cases hle : x.amount ≤ rem
        · rw [if_pos hle] at hzero
          omega
        · rw [if_neg hle]
      · have hcase : ¬(f ≠ dst ∨ i + 1 < (trOf s f).length) := fun hc => hyx' (hyeqx hc)
        push_neg at hcase
        obtain ⟨hfd, hlen⟩ := hcase
        have hlone : (trOf s f).length = 1 := by omega
        have hsingle : trOf s f = [(trOf s f).getD 0 dflt] :=
          eq_singleton_of_length_one hlone dflt
        have hsumx : trancheSum (trOf s f) = x.amount := by
          conv_lhs => rw [hsingle]
          rw [trancheSum_cons, trancheSum_nil, ← hxdef, hizero]
          omega
        rw [← htkdef]
        by_cases hle : x.amount ≤ rem
        · rw [if_pos hle]
          omega
        · rw [if_neg hle]
    refine ⟨tk, setTr s1 f l2, i + 1, hstep, htkr, by rw [hxdef]; exact htkx,
      by rw [hxdef]; exact htkpos, by simp [hbal1], by simp [hsup1], by simp [hev1],
      ?_, ?_, ?_, ?_, ?_, Or.inr ⟨rfl, hremtk⟩⟩
    · intro c hcf hcd
      rw [trOf_setTr_ne hcf, htr1ne c hcd]
    · have h1 := flashSumAll_setTr s1 f l2
      omega
    · intro hfd
      constructor
      · rw [trOf_setTr_self]
        rw [if_neg hfd] at hsum1f
        omega
      · rw [trOf_setTr_ne (fun hh : dst = f => hfd hh.symm), htr1dst, trancheSum_appendList]
    · intro hfd
      rw [trOf_setTr_self]
      rw [hsum1f, if_pos hfd] at hsuml2
      omega
    · intro hpf hpd
      obtain ⟨hp1f, hp1d⟩ := hpos1 hpf hpd
      have hmain : ∀ z ∈ l2, 0 < z.amount := by
        intro z hz
        rcases hmeml2 z hz with h1 | h1
        · exact hp1f z h1
        · rw [h1]
          simpa using Nat.pos_of_ne_zero hzero
      constructor
      · rw [trOf_setTr_self]
        exact hmain
      · by_cases hfd : f = dst
        · rw [← hfd, trOf_setTr_self]
          exact hmain
        · rw [trOf_setTr_ne (fun hh : dst = f => hfd hh.symm)]
          exact hp1d


/-! ### moveLoop analysis -/

theorem moveLoop_frames :
    ∀ fuel (s : Ledger) (f dst : Addr) (rem i : Nat) (s' : Ledger) (rem' : Nat),
      moveLoop fuel s f dst rem i = Option.some (s', rem') →
      s'.bal = s.bal ∧ s'.supply = s.supply ∧ s'.events = s.events ∧
      (∀ c, c ≠ f → c ≠ dst → trOf s' c = trOf s c) ∧
      flashSumAll s' = flashSumAll s ∧ rem' ≤ rem := by
  intro fuel
  induction fuel with
  | zero =>
    intro s f dst rem i s' rem' h
    simp [moveLoop] at h
  | succ n ih =>
    intro s f dst rem i s' rem' h
    rw [moveLoop] at h
    by_cases hg : 0 < rem ∧ i < (trOf s f).length
    · rw [if_pos hg] at h
      obtain ⟨tk, s1, i1, hstep, htkr, htkx, htkp, hbal, hsup, hev, hframe, hfsum,
        hsums, hsumself, hposc, hii⟩ := moveStep_facts s f dst hg.1 hg.2
      rw [hstep] at h
      obtain ⟨hb, hs, he, hf, hfs, hr⟩ := ih s1 f dst (rem - tk) i1 s' rem' h
      exact ⟨by rw [hb, hbal], by rw [hs, hsup], by rw [he, hev],
        fun c h1 h2 => by rw [hf c h1 h2, hframe c h1 h2], by rw [hfs, hfsum], by omega⟩
    · rw [if_neg hg] at h
      have h1 : s = s' ∧ rem = rem' := by simpa using h
      obtain ⟨rfl, rfl⟩ := h1
      exact ⟨rfl, rfl, rfl, fun c _ _ => rfl, rfl, Nat.le_refl _⟩

theorem moveLoop_sums :
    ∀ fuel (s : Ledger) (f dst : Addr) (rem i : Nat) (s' : Ledger) (rem' : Nat),
      f ≠ dst →
      moveLoop fuel s f dst rem i = Option.some (s', rem') →
      trancheSum (trOf s' f) + rem = trancheSum (trOf s f) + rem' ∧
      trancheSum (trOf s' dst) + rem' = trancheSum (trOf s dst) + rem := by
  intro fuel
  induction fuel with
  | zero =>
    intro s f dst rem i s' rem' hne h
    simp [moveLoop] at h
  | succ n ih =>
    intro s f dst rem i s' rem' hne h
    rw [moveLoop] at h
    by_cases hg : 0 < rem ∧ i < (trOf s f).length
    · rw [if_pos hg] at h
      obtain ⟨tk, s1, i1, hstep, htkr, htkx, htkp, hbal, hsup, hev, hframe, hfsum,
        hsums, hsumself, hposc, hii⟩ := moveStep_facts s f dst hg.1 hg.2
      rw [hstep] at h
      obtain ⟨h1, h2⟩ := ih s1 f dst (rem - tk) i1 s' rem' hne h
      obtain ⟨hs1, hs2⟩ := hsums hne
      constructor <;> omega
    · rw [if_neg hg] at h
      have h1 : s = s' ∧ rem = rem' := by simpa using h
      obtain ⟨rfl, rfl⟩ := h1
      omega

theorem moveLoop_sums_self :
    ∀ fuel (s : Ledger) (f : Addr) (rem i : Nat) (s' : Ledger) (rem' : Nat),
      moveLoop fuel s f f rem i = Option.some (s', rem') →
      trancheSum (trOf s' f) = trancheSum (trOf s f) := by
  intro fuel
  induction fuel with
  | zero =>
    intro s f rem i s' rem' h
    simp [moveLoop] at h
  | succ n ih =>
    intro s f rem i s' rem' h
    rw [moveLoop] at h
    by_cases hg : 0 < rem ∧ i < (trOf s f).length
    · rw [if_pos hg] at h
      obtain ⟨tk, s1, i1, hstep, htkr, htkx, htkp, hbal, hsup, hev, hframe, hfsum,
        hsums, hsumself, hposc, hii⟩ := moveStep_facts s f f hg.1 hg.2
      rw [hstep] at h
      rw [ih s1 f (rem - tk) i1 s' rem' h, hsumself rfl]
    · rw [if_neg hg] at h
      have h1 : s = s' ∧ rem = rem' := by simpa using h
      obtain ⟨rfl, rfl⟩ := h1
      rfl

theorem moveLoop_pos :
    ∀ fuel (s : Ledger) (f dst : Addr) (rem i : Nat) (s' : Ledger) (rem' : Nat),
      moveLoop fuel s f dst rem i = Option.some (s', rem') →
      (∀ x ∈ trOf s f, 0 < x.amount) → (∀ x ∈ trOf s dst, 0 < x.amount) →
      (∀ x ∈ trOf s' f, 0 < x.amount) ∧ (∀ x ∈ trOf s' dst, 0 < x.amount) := by
  intro fuel
  induction fuel with
  | zero =>
    intro s f dst rem i s' rem' h
    simp [moveLoop] at h
  | succ n ih =>
    intro s f dst rem i s' rem' h hpf hpd
    rw [moveLoop] at h
    by_cases hg : 0 < rem ∧ i < (trOf s f).length
    · rw [if_pos hg] at h
      obtain ⟨tk, s1, i1, hstep, htkr, htkx, htkp, hbal, hsup, hev, hframe, hfsum,
        hsums, hsumself, hposc, hii⟩ := moveStep_facts s f dst hg.1 hg.2
      rw [hstep] at h
      obtain ⟨hp1, hp2⟩ := hposc hpf hpd
      exact ih s1 f dst (rem - tk) i1 s' rem' h hp1 hp2
    · rw [if_neg hg] at h
      have h1 : s = s' ∧ rem = rem' := by simpa using h
      obtain ⟨rfl, rfl⟩ := h1
      exact ⟨hpf, hpd⟩

theorem moveLoop_ne_none :
    ∀ fuel (s : Ledger) (f dst : Addr) (rem i : Nat),
      (∀ x ∈ trOf s f, 0 < x.amount) → (∀ x ∈ trOf s dst, 0 < x.amount) →
      rem < fuel →
      ∃ s' rem', moveLoop fuel s f dst rem i = Option.some (s', rem') := by
  intro fuel
  induction fuel with
  | zero =>
    intro s f dst rem i _ _ hlt
    omega
  | succ n ih =>
    intro s f dst rem i hpf hpd hlt
    rw [moveLoop]
    by_cases hg : 0 < rem ∧ i < (trOf s f).length
    · rw [if_pos hg]
      obtain ⟨tk, s1, i1, hstep, htkr, htkx, htkp, hbal, hsup, hev, hframe, hfsum,
        hsums, hsumself, hposc, hii⟩ := moveStep_facts s f dst hg.1 hg.2
      rw [hstep]
      have hxpos : 0 < ((trOf s f).getD i dflt).amount := hpf _ (getD_mem hg.2 dflt)
      have htk0 : 0 < tk := htkp hxpos
      obtain ⟨hp1, hp2⟩ := hposc hpf hpd
      exact ih s1 f dst (rem - tk) i1 hp1 hp2 (by omega)
    · rw [if_neg hg]
      exact ⟨s, rem, rfl⟩

theorem moveLoop_success :
    ∀ fuel (s : Ledger) (f dst : Addr) (rem : Nat),
      (∀ x ∈ trOf s f, 0 < x.amount) → (∀ x ∈ trOf s dst, 0 < x.amount) →
      rem ≤ trancheSum (trOf s f) → rem < fuel →
      ∃ s', moveLoop fuel s f dst rem 0 = Option.some (s', 0) := by
  intro fuel
  induction fuel with
  | zero =>
    intro s f dst rem _ _ _ hlt
    omega
  | succ n ih =>
    intro s f dst rem hpf hpd hsum hlt
    by_cases hr0 : rem = 0
    · subst hr0
      exact ⟨s, rfl⟩
    · by_cases hlen : (trOf s f).length = 0
      · exfalso
        have : trOf s f = [] := List.eq_nil_of_length_eq_zero hlen
        rw [this] at hsum
        simp [trancheSum] at hsum
        omega
      · have hg : 0 < rem ∧ 0 < (trOf s f).length := ⟨by omega, by omega⟩
        obtain ⟨tk, s1, i1, hstep, htkr, htkx, htkp, hbal, hsup, hev, hframe, hfsum,
          hsums, hsumself, hposc, hii⟩ := moveStep_facts s f dst hg.1 hg.2
        have hxpos : 0 < ((trOf s f).getD 0 dflt).amount := hpf _ (getD_mem hg.2 dflt)
        have htk0 : 0 < tk := htkp hxpos
        obtain ⟨hp1, hp2⟩ := hposc hpf hpd
        have hsum1 : rem - tk ≤ trancheSum (trOf s1 f) := by
          by_cases hfd : f = dst
          · rw [hsumself hfd]
            omega
          · obtain ⟨h1, _⟩ := hsums hfd
            omega
        rcases hii with hii | ⟨hii, hforce⟩
        · -- the slot was emptied and refilled by the swap: i stays 0
          subst hii
          obtain ⟨s', hrec⟩ := ih s1 f dst (rem - tk) hp1 hp2 hsum1 (by omega)
          refine ⟨s', ?_⟩
          rw [moveLoop, if_pos hg, hstep]
          exact hrec
        · -- partial consumption: remaining hit zero and the loop exits
          have hrt : rem = tk := hforce rfl hsum
          refine ⟨s1, ?_⟩
          rw [moveLoop, if_pos hg, hstep, hii]
          have hz : rem - tk = 0 := by omega
          rw [hz]
          cases n with
          | zero => omega
          | succ m => rfl

theorem moveTranches_ok {s : Ledger} {f dst : Addr} (v : Nat)
    (hpf : ∀ x ∈ trOf s f, 0 < x.amount) (hpd : ∀ x ∈ trOf s dst, 0 < x.amount)
    (hv : v ≤ trancheSum (trOf s f)) :
    ∃ s', moveTranches s f dst v = Except.ok s' ∧
      s'.bal = s.bal ∧ s'.supply = s.supply ∧ s'.events = s.events ∧
      (∀ c, c ≠ f → c ≠ dst → trOf s' c = trOf s c) ∧
      flashSumAll s' = flashSumAll s ∧
      (f ≠ dst → trancheSum (trOf s' f) + v = trancheSum (trOf s f) ∧
                 trancheSum (trOf s' dst) = trancheSum (trOf s dst) + v) ∧
      (f = dst → trancheSum (trOf s' f) = trancheSum (trOf s f)) ∧
      (∀ x ∈ trOf s' f, 0 < x.amount) ∧ (∀ x ∈ trOf s' dst, 0 < x.amount) := by
  obtain ⟨s', hML⟩ :=
    moveLoop_success (v + (trOf s f).length + 1) s f dst v hpf hpd hv (by omega)
  obtain ⟨hb, hs, he, hf, hfs, _⟩ :=
    moveLoop_frames (v + (trOf s f).length + 1) s f dst v 0 s' 0 hML
  obtain ⟨hposf, hposd⟩ :=
    moveLoop_pos (v + (trOf s f).length + 1) s f dst v 0 s' 0 hML hpf hpd
  refine ⟨s', ?_, hb, hs, he, hf, hfs, ?_, ?_, hposf, hposd⟩
  · rw [moveTranches, hML]
    rfl
  · intro hne
    obtain ⟨h1, h2⟩ := moveLoop_sums (v + (trOf s f).length + 1) s f dst v 0 s' 0 hne hML
    omega
  · intro heq
    subst heq
    exact moveLoop_sums_self (v + (trOf s f).length + 1) s f v 0 s' 0 hML

theorem moveTranches_fail_ne {s : Ledger} {f dst : Addr} (v : Nat) (hne : f ≠ dst)
    (hpf : ∀ x ∈ trOf s f, 0 < x.amount) (hpd : ∀ x ∈ trOf s dst, 0 < x.amount)
    (hv : trancheSum (trOf s f) < v) :
    moveTranches s f dst v = Except.error "Insufficient active flash balance" := by
  obtain ⟨s', rem', hML⟩ :=
    moveLoop_ne_none (v + (trOf s f).length + 1) s f dst v 0 hpf hpd (by omega)
  obtain ⟨h1, h2⟩ := moveLoop_sums (v + (trOf s f).length + 1) s f dst v 0 s' rem' hne hML
  rw [moveTranches, hML]
  show (if rem' = 0 then Except.ok s' else Except.error "Insufficient active flash balance")
      = Except.error "Insufficient active flash balance"
  rw [if_neg (by omega)]

theorem moveTranches_cases {s : Ledger} {f dst : Addr} (v : Nat)
    (hpf : ∀ x ∈ trOf s f, 0 < x.amount) (hpd : ∀ x ∈ trOf s dst, 0 < x.amount) :
    (∃ s', moveTranches s f dst v = Except.ok s' ∧ s'.bal = s.bal) ∨
      moveTranches s f dst v = Except.error "Insufficient active flash balance" := by
  obtain ⟨s', rem', hML⟩ :=
    moveLoop_ne_none (v + (trOf s f).length + 1) s f dst v 0 hpf hpd (by omega)
  obtain ⟨hb, _⟩ := moveLoop_frames (v + (trOf s f).length + 1) s f dst v 0 s' rem' hML
  by_cases hr : rem' = 0
  · subst hr
    left
    refine ⟨s', ?_, hb⟩
    rw [moveTranches, hML]
    rfl
  · right
    rw [moveTranches, hML]
    show (if rem' = 0 then Except.ok s' else Except.error "Insufficient active flash balance")
        = Except.error "Insufficient active flash balance"
    rw [if_neg hr]


/-! ### mintFlash specification -/

@[simp] theorem balOf_appendTranche (s : Ledger) (a : Addr) (amount e : Nat) (c : Addr) :
    balOf (appendTranche s a amount e) c = balOf s c := rfl

theorem moveTranches_zero (s : Ledger) (f dst : Addr) :
    moveTranches s f dst 0 = Except.ok s := rfl

theorem mintFlash_spec {s : Ledger} (hInv : Inv s) {dst : Addr} (hdst : dst ≠ 0)
    {amount : Nat} (ha : amount ≠ 0) {t E : Nat} (hE : ¬ E ≤ t) :
    ∃ s', mintFlash t s dst amount E = Except.ok s' ∧ Inv s' ∧
      trOf s' dst = appendList (syncList t (trOf s dst)).1 amount E ∧
      (∀ c, c ≠ dst → trOf s' c = trOf s c) ∧
      balOf s' dst = activeSum t (trOf s dst) + amount ∧
      (∀ c, c ≠ dst → balOf s' c = balOf s c) ∧
      s'.supply + expiredSum t (trOf s dst) = s.supply + amount := by
  obtain ⟨s1, hsync, hout⟩ := syncExpiry_ok hInv t dst
  have hInv1 := hout.inv
  obtain ⟨s3, herc, hfl3, hsup3, hbal3, hbalF3, hev3⟩ :=
    erc20Update_mint (appendTranche s1 dst amount E) hdst amount
  refine ⟨emit s3 (Event.flashMinted dst amount E), ?_, ?_, ?_, ?_, ?_, ?_, ?_⟩
  · rw [mintFlash, if_neg hdst, if_neg ha, if_neg hE]
    simp only [hsync, herc]
  · have htr3 : ∀ c, trOf s3 c = trOf (appendTranche s1 dst amount E) c := trOf_congr hfl3
    have hfs3 : flashSumAll s3 = flashSumAll (appendTranche s1 dst amount E) :=
      flashSumAll_congr hfl3
    refine ⟨?_, ?_, ?_, ?_⟩
    · rw [flashSumAll_emit, hfs3, flashSumAll_appendTranche, supply_emit, hsup3,
        supply_appendTranche, hInv1.fsum]
    · intro c
      by_cases hc : c = dst
      · subst hc
        rw [trOf_emit, htr3 c, trOf_appendTranche_self, trancheSum_appendList,
          balOf_emit, hbal3, balOf_appendTranche, hInv1.link c]
      · rw [trOf_emit, htr3 c, trOf_appendTranche_ne hc, balOf_emit, hbalF3 c hc,
          balOf_appendTranche]
        exact hInv1.link c
    · intro c x hx
      by_cases hc : c = dst
      · subst hc
        rw [trOf_emit, htr3 c, trOf_appendTranche_self] at hx
        exact appendList_pos (hInv1.pos c) (by omega) E x hx
      · rw [trOf_emit, htr3 c, trOf_appendTranche_ne hc] at hx
        exact hInv1.pos c x hx
    · rw [trOf_emit, htr3 0, trOf_appendTranche_ne (fun hh => hdst hh.symm)]
      exact hInv1.zeroFlash
  · rw [trOf_emit, trOf_congr hfl3, trOf_appendTranche_self, hout.trEq]
  · intro c hc
    rw [trOf_emit, trOf_congr hfl3, trOf_appendTranche_ne hc]
    exact hout.frame c hc
  · rw [balOf_emit, hbal3, balOf_appendTranche, hout.balA]
  · intro c hc
    rw [balOf_emit, hbalF3 c hc, balOf_appendTranche]
    exact hout.balFrame c hc
  · rw [supply_emit, hsup3, supply_appendTranche]
    have := hout.supplyEq
    omega


/-! ### transfer specification -/

theorem balOf_congr {s1 s2 : Ledger} (h : s1.bal = s2.bal) (c : Addr) :
    balOf s1 c = balOf s2 c := by rw [balOf, balOf, h]

theorem transfer_spec {s : Ledger} (hInv : Inv s) {f dst : Addr} (hf : f ≠ 0)
    (hdst : dst ≠ 0) (t v : Nat) :
    (v ≤ activeSum t (trOf s f) →
      ∃ s', transfer t s f dst v = Except.ok s' ∧ Inv s') ∧
    (activeSum t (trOf s f) < v → f ≠ dst →
      transfer t s f dst v = Except.error "Insufficient active flash balance") ∧
    (activeSum t (trOf s f) < v →
      transfer t s f dst v = Except.error "Insufficient active flash balance" ∨
      transfer t s f dst v = Except.error "ERC20InsufficientBalance") := by
  obtain ⟨s1, hsync1, hout1⟩ := syncExpiry_ok hInv t f
  obtain ⟨s2, hsync2, hout2⟩ := syncExpiry_ok hout1.inv t dst
  have hInv2 := hout2.inv
  obtain ⟨key1, key2⟩ : trancheSum (trOf s2 f) = activeSum t (trOf s f) ∧
      balOf s2 f = activeSum t (trOf s f) := by
    by_cases hfd : f = dst
    · subst hfd
      have hact1 : ∀ x ∈ trOf s1 f, t < x.expiresAt := by
        intro x hx
        rw [hout1.trEq] at hx
        exact (mem_syncList t (trOf s f) x hx).2
      have hz : expiredSum t (trOf s1 f) = 0 := expiredSum_eq_zero t hact1
      have hA := activeSum_add_expiredSum t (trOf s1 f)
      have hs1sum : trancheSum (trOf s1 f) = activeSum t (trOf s f) := by
        rw [hout1.trEq, trancheSum_syncList]
      constructor
      · rw [hout2.trEq, trancheSum_syncList]
        omega
      · rw [hout2.balA]
        omega
    · have h1 : trOf s2 f = trOf s1 f := hout2.frame f hfd
      constructor
      · rw [h1, hout1.trEq, trancheSum_syncList]
      · rw [hout2.balFrame f hfd, hout1.balA]
  refine ⟨?_, ?_, ?_⟩
  · -- enough active balance: the transfer succeeds and preserves the invariant
    intro hv
    obtain ⟨s3, hmv, hb3, hs3, he3, hfr3, hfs3, hsums3, hself3, hp3f, hp3d⟩ :=
      moveTranches_ok v (hInv2.pos f) (hInv2.pos dst) (by omega)
    have hbal3 : ∀ c, balOf s3 c = balOf s2 c := balOf_congr hb3
    have hv3 : v ≤ balOf s3 f := by
      rw [hbal3 f]
      omega
    obtain ⟨s4, herc, hfl4, hsup4, hmove4, hmovself4, hfr4, hev4⟩ :=
      erc20Update_move s3 hf hdst hv3
    have htr4 : ∀ c, trOf s4 c = trOf s3 c := trOf_congr hfl4
    refine ⟨s4, ?_, ?_⟩
    · rw [transfer, if_neg hf, if_neg hdst]
      simp only [hsync1, hsync2, hmv, herc]
    · refine ⟨?_, ?_, ?_, ?_⟩
      · rw [flashSumAll_congr hfl4, hfs3, hInv2.fsum, hsup4, hs3]
      · intro c
        by_cases hfd : f = dst
        · subst hfd
          by_cases hc : c = f
          · subst hc
            rw [htr4 c, hself3 rfl, hmovself4 rfl c, hbal3 c]
            exact hInv2.link c
          · rw [htr4 c, hfr3 c hc hc, hfr4 c hc hc, hbal3 c]
            exact hInv2.link c
        · by_cases hc : c = f
          · subst hc
            obtain ⟨hsf, _⟩ := hsums3 hfd
            obtain ⟨hbf, _⟩ := hmove4 hfd
            rw [htr4 c]
            have hl2 := hInv2.link c
            rw [hbal3 c] at hbf
            omega
          · by_cases hcd : c = dst
            · subst hcd
              obtain ⟨_, hsd⟩ := hsums3 hfd
              obtain ⟨_, hbd⟩ := hmove4 hfd
              rw [htr4 c, hsd, hbd, hbal3 c, hInv2.link c]
            · rw [htr4 c, hfr3 c hc hcd, hfr4 c hc hcd, hbal3 c]
              exact hInv2.link c
      · intro c x hx
        by_cases hc : c = f
        · subst hc
          rw [htr4 c] at hx
          exact hp3f x hx
        · by_cases hcd : c = dst
          · subst hcd
            rw [htr4 c] at hx
            exact hp3d x hx
          · rw [htr4 c, hfr3 c hc hcd] at hx
            exact hInv2.pos c x hx
      · rw [htr4 0, hfr3 0 (fun hh => hf hh.symm) (fun hh => hdst hh.symm)]
        exact hInv2.zeroFlash
  · -- not enough active balance, distinct accounts: the move itself reverts
    intro hv hne
    have hfail := moveTranches_fail_ne v hne (hInv2.pos f) (hInv2.pos dst) (by omega)
    rw [transfer, if_neg hf, if_neg hdst]
    simp only [hsync1, hsync2, hfail]
  · -- not enough active balance: some insufficient-balance revert happens
    intro hv
    rcases moveTranches_cases v (hInv2.pos f) (hInv2.pos dst) with ⟨s3, hmv, hb3⟩ | hmv
    · right
      have hbal3 : balOf s3 f = balOf s2 f := balOf_congr hb3 f
      have hfail : erc20Update s3 f dst v = Except.error "ERC20InsufficientBalance" :=
        erc20Update_fail s3 dst hf (by omega)
      rw [transfer, if_neg hf, if_neg hdst]
      simp only [hsync1, hsync2, hmv, hfail]
    · left
      rw [transfer, if_neg hf, if_neg hdst]
      simp only [hsync1, hsync2, hmv]


theorem transfer_zero_spec {s : Ledger} (hInv : Inv s) {f dst : Addr} (hf : f ≠ 0)
    (hdst : dst ≠ 0) (hne : f ≠ dst) (t : Nat) :
    ∃ s', transfer t s f dst 0 = Except.ok s' ∧
      List.Perm (trOf s' f) ((trOf s f).filter (fun x => decide (t < x.expiresAt))) ∧
      List.Perm (trOf s' dst) ((trOf s dst).filter (fun x => decide (t < x.expiresAt))) ∧
      balOf s' f = activeSum t (trOf s f) ∧
      balOf s' dst = activeSum t (trOf s dst) ∧
      s'.supply + expiredSum t (trOf s f) + expiredSum t (trOf s dst) = s.supply := by
  obtain ⟨s1, hsync1, hout1⟩ := syncExpiry_ok hInv t f
  obtain ⟨s2, hsync2, hout2⟩ := syncExpiry_ok hout1.inv t dst
  have htr1d : trOf s1 dst = trOf s dst := hout1.frame dst (fun hh => hne hh.symm)
  obtain ⟨s4, herc, hfl4, hsup4, hmove4, hmovself4, hfr4, hev4⟩ :=
    erc20Update_move s2 hf hdst (Nat.zero_le (balOf s2 f))
  refine ⟨s4, ?_, ?_, ?_, ?_, ?_, ?_⟩
  · rw [transfer, if_neg hf, if_neg hdst]
    simp only [hsync1, hsync2, moveTranches_zero, herc]
  · rw [trOf_congr hfl4 f, hout2.frame f hne, hout1.trEq]
    exact syncList_perm t (trOf s f)
  · rw [trOf_congr hfl4 dst, hout2.trEq, htr1d]
    exact syncList_perm t (trOf s dst)
  · obtain ⟨h1, _⟩ := hmove4 hne
    rw [hout2.balFrame f hne, hout1.balA] at h1
    omega
  · obtain ⟨_, h2⟩ := hmove4 hne
    rw [h2, hout2.balA, htr1d]
    have h1 := hmove4 hne
    omega
  · have h1 := hout1.supplyEq
    have h2 := hout2.supplyEq
    rw [htr1d] at h2
    omega

/-! ### Invariant preservation and reachability -/

theorem sweepGo_inv : ∀ (l : List Addr) {s s' : Ledger} (t : Nat), Inv s →
    sweepGo t s l = Except.ok s' → Inv s' := by
  intro l
  induction l with
  | nil =>
    intro s s' t hInv h
    rw [sweepGo] at h
    have hss : s = s' := by simpa using h
    exact hss ▸ hInv
  | cons a r ih =>
    intro s s' t hInv h
    rw [sweepGo] at h
    obtain ⟨s1, hsync, hout⟩ := syncExpiry_ok hInv t a
    rw [hsync] at h
    exact ih t hout.inv h

theorem applyOp_inv {t : Nat} {s s' : Ledger} {op : Op} (hInv : Inv s)
    (h : applyOp t s op = Except.ok s') : Inv s' := by
  cases op with
  | mint dst amount E =>
    rw [applyOp] at h
    by_cases h1 : dst = 0
    · rw [mintFlash, if_pos h1] at h
      exact Except.noConfusion h
    · by_cases h2 : amount = 0
      · rw [mintFlash, if_neg h1, if_pos h2] at h
        exact Except.noConfusion h
      · by_cases h3 : E ≤ t
        · rw [mintFlash, if_neg h1, if_neg h2, if_pos h3] at h
          exact Except.noConfusion h
        · obtain ⟨s'', heq, hInv', _⟩ := mintFlash_spec hInv h1 h2 h3
          rw [heq] at h
          have hss : s'' = s' := by simpa using h
          exact hss ▸ hInv'
  | transfer f dst v =>
    rw [applyOp] at h
    by_cases h1 : f = 0
    · rw [transfer, if_pos h1] at h
      exact Except.noConfusion h
    · by_cases h2 : dst = 0
      · rw [transfer, if_neg h1, if_pos h2] at h
        exact Except.noConfusion h
      · obtain ⟨hsucc, hfail1, hfail2⟩ := transfer_spec hInv h1 h2 t v
        by_cases h3 : v ≤ activeSum t (trOf s f)
        · obtain ⟨s'', heq, hInv'⟩ := hsucc h3
          rw [heq] at h
          have hss : s'' = s' := by simpa using h
          exact hss ▸ hInv'
        · rcases hfail2 (by omega) with herr | herr <;> rw [herr] at h <;>
            exact Except.noConfusion h
  | burnExpired a =>
    rw [applyOp, burnExpired] at h
    obtain ⟨s1, hsync, hout⟩ := syncExpiry_ok hInv t a
    rw [hsync] at h
    have hss : s1 = s' := by simpa using h
    exact hss ▸ hout.inv
  | sweepExpired l =>
    rw [applyOp, sweepExpired] at h
    exact sweepGo_inv l t hInv h

theorem inv_init : Inv initLedger := by
  refine ⟨rfl, ?_, ?_, ?_⟩
  · intro a
    rfl
  · intro a x hx
    simp [trOf, initLedger, alGet] at hx
  · rfl

theorem reachable_inv {s : Ledger} (h : Reachable s) : Inv s := by
  induction h with
  | init => exact inv_init
  | step t op hr heq ih => exact applyOp_inv ih heq


/-! ### Exact computation helpers for scenario claims -/

theorem syncGo_all_active (t : Nat) :
    ∀ n (l : List Tranche) (i b : Nat), (∀ x ∈ l, t < x.expiresAt) →
      syncGo t n l i b = (l, b) := by
  intro n
  induction n with
  | zero =>
    intro l i b _
    rfl
  | succ m ih =>
    intro l i b hact
    rw [syncGo]
    by_cases hi : i < l.length
    · rw [if_pos hi,
        if_neg (by have := hact _ (getD_mem hi dflt); omega)]
      exact ih l (i + 1) b hact
    · rw [if_neg hi]

theorem syncList_id {t : Nat} {l : List Tranche} (hact : ∀ x ∈ l, t < x.expiresAt) :
    syncList t l = (l, 0) := by
  rw [syncList]
  exact syncGo_all_active t l.length l 0 0 hact

theorem appendList_nil (a e : Nat) : appendList [] a e = [⟨a, e⟩] := rfl

theorem moveLoop_succ (fuel : Nat) (s : Ledger) (f dst : Addr) (rem i : Nat) :
    moveLoop (fuel + 1) s f dst rem i =
      if 0 < rem ∧ i < (trOf s f).length then
        match moveStep s f dst rem i with
        | (s', rem', i') => moveLoop fuel s' f dst rem' i'
      else Option.some (s, rem) := rfl

theorem moveLoop_zero_rem (fuel : Nat) (s : Ledger) (f dst : Addr) (i : Nat)
    (h : 0 < fuel) : moveLoop fuel s f dst 0 i = Option.some (s, 0) := by
  cases fuel with
  | zero => omega
  | succ n => rfl

theorem moveLoop_match_step (fuel : Nat) {s : Ledger} {f dst : Addr} {rem i : Nat}
    {s₂ : Ledger} {rem₂ i₂ : Nat} (hg : 0 < rem ∧ i < (trOf s f).length)
    (hstep : moveStep s f dst rem i = (s₂, rem₂, i₂)) :
    moveLoop (fuel + 1) s f dst rem i = moveLoop fuel s₂ f dst rem₂ i₂ := by
  rw [moveLoop_succ, if_pos hg, hstep]

theorem moveStep_head_take {s : Ledger} {f dst : Addr} {x : Tranche} {rest : List Tranche}
    {v : Nat} (hne : f ≠ dst) (htr : trOf s f = x :: rest) (hlt : ¬ x.amount ≤ v) :
    moveStep s f dst v 0 =
      (setTr (appendTranche s dst v x.expiresAt) f
        (⟨x.amount - v, x.expiresAt⟩ :: rest), v - v, 1) := by
  have hx0 : (trOf s f).getD 0 dflt = x := by rw [htr]; rfl
  have htr1 : trOf (appendTranche s dst v x.expiresAt) f = x :: rest := by
    rw [trOf_appendTranche_ne hne, htr]
  rw [moveStep]
  simp only [hx0, if_neg hlt, htr1, List.getD_cons_zero, List.set_cons_zero,
    if_neg (show ¬ (x.amount - v = 0) by omega)]

theorem moveTranches_head_take {s : Ledger} {f dst : Addr} {x : Tranche}
    {rest : List Tranche} {v : Nat} (hne : f ≠ dst) (htr : trOf s f = x :: rest)
    (h0 : 0 < v) (hlt : ¬ x.amount ≤ v) :
    moveTranches s f dst v = Except.ok
      (setTr (appendTranche s dst v x.expiresAt) f
        (⟨x.amount - v, x.expiresAt⟩ :: rest)) := by
  have hg : 0 < v ∧ 0 < (trOf s f).length := ⟨h0, by rw [htr]; simp⟩
  have h1 := moveLoop_match_step (v + (trOf s f).length) hg
    (moveStep_head_take hne htr hlt)
  rw [Nat.sub_self] at h1
  rw [moveLoop_zero_rem (v + (trOf s f).length) _ f dst 1 (by omega)] at h1
  rw [moveTranches, h1]
  rfl


theorem transfer_head_take_spec {s : Ledger} (hInv : Inv s) {f dst : Addr} (hf : f ≠ 0)
    (hdst : dst ≠ 0) (hne : f ≠ dst) {t v : Nat} {x : Tranche} {rest : List Tranche}
    (htr : trOf s f = x :: rest)
    (hact : ∀ z ∈ trOf s f, t < z.expiresAt)
    (hactd : ∀ z ∈ trOf s dst, t < z.expiresAt)
    (h0 : 0 < v) (hlt : v < x.amount) :
    ∃ s', transfer t s f dst v = Except.ok s' ∧
      trOf s' f = ⟨x.amount - v, x.expiresAt⟩ :: rest ∧
      trOf s' dst = appendList (trOf s dst) v x.expiresAt ∧
      balOf s' f + v = balOf s f ∧ balOf s' dst = balOf s dst + v := by
  obtain ⟨s1, hsync1, hout1⟩ := syncExpiry_ok hInv t f
  obtain ⟨s2, hsync2, hout2⟩ := syncExpiry_ok hout1.inv t dst
  have htr1f : trOf s1 f = x :: rest := by
    rw [hout1.trEq, syncList_id hact]
    exact htr
  have htr1d : trOf s1 dst = trOf s dst := hout1.frame dst (fun hh => hne hh.symm)
  have htr2f : trOf s2 f = x :: rest := by
    rw [hout2.frame f hne]
    exact htr1f
  have hactd1 : ∀ z ∈ trOf s1 dst, t < z.expiresAt := by
    rw [htr1d]
    exact hactd
  have htr2d : trOf s2 dst = trOf s dst := by
    rw [hout2.trEq, syncList_id hactd1]
    exact htr1d
  have hmv := moveTranches_head_take hne htr2f h0 (by omega)
  have hbal2f : balOf s2 f = balOf s f := by
    rw [hout2.balFrame f hne, hout1.balA]
    have hz : expiredSum t (trOf s f) = 0 := expiredSum_eq_zero t hact
    have hae := activeSum_add_expiredSum t (trOf s f)
    have hl := hInv.link f
    omega
  have hbal2d : balOf s2 dst = balOf s dst := by
    rw [hout2.balA]
    have hz : expiredSum t (trOf s1 dst) = 0 := expiredSum_eq_zero t hactd1
    have hae := activeSum_add_expiredSum t (trOf s1 dst)
    have hl := hout1.inv.link dst
    have hbf := hout1.balFrame dst (fun hh => hne hh.symm)
    omega
  have hb3 : ∀ c, balOf (setTr (appendTranche s2 dst v x.expiresAt) f
      (⟨x.amount - v, x.expiresAt⟩ :: rest)) c = balOf s2 c := fun c => rfl
  have hlink := hInv.link f
  rw [htr, trancheSum_cons] at hlink
  have hv3 : v ≤ balOf (setTr (appendTranche s2 dst v x.expiresAt) f
      (⟨x.amount - v, x.expiresAt⟩ :: rest)) f := by
    rw [hb3 f, hbal2f]
    omega
  obtain ⟨s4, herc, hfl4, hsup4, hmove4, hmvs4, hfr4, hev4⟩ :=
    erc20Update_move _ hf hdst hv3
  refine ⟨s4, ?_, ?_, ?_, ?_, ?_⟩
  · rw [transfer, if_neg hf, if_neg hdst]
    simp only [hsync1, hsync2, hmv, herc]
  · rw [trOf_congr hfl4 f, trOf_setTr_self]
  · rw [trOf_congr hfl4 dst, trOf_setTr_ne (fun hh : dst = f => hne hh.symm),
      trOf_appendTranche_self, htr2d]
  · obtain ⟨hbf, _⟩ := hmove4 hne
    rw [hb3 f, hbal2f] at hbf
    exact hbf
  · obtain ⟨_, hbd⟩ := hmove4 hne
    rw [hbd, hb3 dst, hbal2d]

/-! ### Claim theorems and witnesses -/

/-- A concrete reachable state: `mintFlash(account 1, 100 tokens, expiry 1000)`
executed at time `0` on the freshly deployed ledger. -/
def wit1 : Ledger :=
  match mintFlash 0 initLedger 1 100 1000 with
  | Except.ok s => s
  | Except.error _ => initLedger

theorem wit1_reachable : Reachable wit1 :=
  Reachable.step 0 (Op.mint 1 100 1000) Reachable.init rfl

/-- A concrete reachable state: account `1` holds tranches `[5@100, 3@200]`. -/
def wit2 : Ledger :=
  match mintFlash 0 initLedger 1 5 100 with
  | Except.ok sA =>
    (match mintFlash 0 sA 1 3 200 with
     | Except.ok sB => sB
     | Except.error _ => initLedger)
  | Except.error _ => initLedger

/-- A concrete reachable state: account `1` holds tranches appended in the
order `10@100, 10@200, 10@300`. -/
def wit3 : Ledger :=
  match mintFlash 0 initLedger 1 10 100 with
  | Except.ok sA =>
    (match mintFlash 0 sA 1 10 200 with
     | Except.ok sB =>
       (match mintFlash 0 sB 1 10 300 with
        | Except.ok sC => sC
        | Except.error _ => initLedger)
     | Except.error _ => initLedger)
  | Except.error _ => initLedger

theorem wit3_reachable : Reachable wit3 :=
  Reachable.step 0 (Op.mint 1 10 300)
    (Reachable.step 0 (Op.mint 1 10 200)
      (Reachable.step 0 (Op.mint 1 10 100) Reachable.init rfl) rfl) rfl

/-- C1: Conservation — in every ledger state reachable from the empty ledger
by completed `mintFlash`, `transfer`, `burnExpired` and `sweepExpired`
operations, the sum of tranche amounts across all accounts equals the
token's `totalSupply`. -/
theorem conservation_total_supply {s : Ledger} (h : Reachable s) :
    flashSumAll s = s.supply :=
  (reachable_inv h).fsum

/-- C1 witness: the conservation theorem applied to a concrete reachable
state. -/
theorem conservation_total_supply_witness : flashSumAll wit1 = wit1.supply :=
  conservation_total_supply wit1_reachable

/-- C2: Expiry exclusivity — in every reachable state, for every account and
every time `t`, `activeBalanceOf + expiredBalanceOf` equals the account's
fungible-token balance, and equivalently the sum of the account's tranche
amounts equals that balance. -/
theorem active_plus_expired_eq_balance {s : Ledger} (h : Reachable s)
    (t : Nat) (a : Addr) :
    activeBalanceOf t s a + expiredBalanceOf t s a = balOf s a ∧
    trancheSum (trOf s a) = balOf s a := by
  have hInv := reachable_inv h
  have hae := activeSum_add_expiredSum t (trOf s a)
  have hl := hInv.link a
  refine ⟨?_, hl⟩
  rw [activeBalanceOf, expiredBalanceOf]
  omega

/-- C2 witness: expiry exclusivity at a concrete reachable state and time. -/
theorem active_plus_expired_eq_balance_witness :
    activeBalanceOf 2000 wit1 1 + expiredBalanceOf 2000 wit1 1 = balOf wit1 1 ∧
    trancheSum (trOf wit1 1) = balOf wit1 1 :=
  active_plus_expired_eq_balance wit1_reachable 2000 1

/-- C3 counterexample: the claim covers every transfer between nonzero
accounts, including a self-transfer `transfer(a, a, amount)`.  On the
reachable state `wit2` (account 1 holds `[5@100, 3@200]`, active balance 8
at time 0), the self-transfer of 9 exceeds the active balance, yet the loop
of `_moveTranches` re-consumes the value it appends back to the same
account, completes with `remaining = 0`, and the call then reverts inside
`super._update` with ERC20's insufficient-balance error — not with the
"Insufficient active flash balance" error the claim asserts. -/
theorem insufficient_transfer_error_cex :
    (∃ sA, mintFlash 0 initLedger 1 5 100 = Except.ok sA ∧
      mintFlash 0 sA 1 3 200 = Except.ok wit2) ∧
    activeBalanceOf 0 wit2 1 = 8 ∧ (1 : Addr) ≠ 0 ∧ 8 < 9 ∧
    transfer 0 wit2 1 1 9 = Except.error "ERC20InsufficientBalance" ∧
    (Except.error "ERC20InsufficientBalance" : Except String Ledger) ≠
      Except.error "Insufficient active flash balance" := by
  refine ⟨⟨_, rfl, rfl⟩, rfl, by decide, by decide, rfl, by simp⟩

/-- C3 amended: for a transfer between two distinct nonzero accounts whose
amount exceeds the sender's active balance after both sides are purged, the
call reverts with the "Insufficient active flash balance" error; an
`Except.error` result models an EVM revert, so no mutation of either
account's tranches, balances, or the total supply survives.  (A
self-transfer with excessive amount also reverts — see the C4 theorem — but
may carry ERC20's insufficient-balance message instead.) -/
theorem insufficient_transfer_reverts {s : Ledger} (h : Reachable s)
    {f dst : Addr} (hf : f ≠ 0) (hdst : dst ≠ 0) (hne : f ≠ dst) {t v : Nat}
    (hv : activeBalanceOf t s f < v) :
    transfer t s f dst v = Except.error "Insufficient active flash balance" := by
  obtain ⟨_, hfail, _⟩ := transfer_spec (reachable_inv h) hf hdst t v
  exact hfail hv hne

/-- C3 witness: the amended theorem applied at a concrete reachable state. -/
theorem insufficient_transfer_reverts_witness :
    transfer 0 wit1 1 2 200 = Except.error "Insufficient active flash balance" :=
  insufficient_transfer_reverts wit1_reachable (by decide) (by decide) (by decide)
    (by decide)

/-- C4: a transfer between nonzero accounts fails with an insufficient-balance
revert if and only if the requested amount exceeds the sum of the sender's
unexpired tranche amounts at the call's timestamp (its active balance);
equivalently it succeeds iff the amount is at most that active sum — so a
transfer never fails merely because part of the gross pre-purge balance was
expired. -/
theorem transfer_fails_iff_insufficient {s : Ledger} (h : Reachable s)
    {f dst : Addr} (hf : f ≠ 0) (hdst : dst ≠ 0) (t v : Nat) :
    ((∃ s', transfer t s f dst v = Except.ok s') ↔ v ≤ activeBalanceOf t s f) ∧
    ((transfer t s f dst v = Except.error "Insufficient active flash balance" ∨
      transfer t s f dst v = Except.error "ERC20InsufficientBalance") ↔
      activeBalanceOf t s f < v) := by
  obtain ⟨hsucc, _, hfail⟩ := transfer_spec (reachable_inv h) hf hdst t v
  simp only [activeBalanceOf]
  constructor
  · constructor
    · rintro ⟨s', hok⟩
      by_contra hlt
      rcases hfail (by omega) with he | he <;> rw [he] at hok <;>
        exact Except.noConfusion hok
    · intro hle
      obtain ⟨s', hok, _⟩ := hsucc hle
      exact ⟨s', hok⟩
  · constructor
    · intro he
      by_contra hle
      obtain ⟨s', hok, _⟩ := hsucc (by omega)
      rcases he with he | he <;> rw [hok] at he <;> exact Except.noConfusion he
    · exact hfail

/-- C4 witness: the failure-iff theorem applied at a concrete reachable
state, amount and time. -/
theorem transfer_fails_iff_insufficient_witness :
    ((∃ s', transfer 0 wit1 1 2 40 = Except.ok s') ↔ 40 ≤ activeBalanceOf 0 wit1 1) ∧
    ((transfer 0 wit1 1 2 40 = Except.error "Insufficient active flash balance" ∨
      transfer 0 wit1 1 2 40 = Except.error "ERC20InsufficientBalance") ↔
      activeBalanceOf 0 wit1 1 < 40) :=
  transfer_fails_iff_insufficient wit1_reachable (by decide) (by decide) 0 40


/-- C5 counterexample: with the sender's tranches appended in order
`10@100, 10@200, 10@300` (all active at time 0, so the expiry purge removes
nothing), a transfer of 15 consumes the `@100` tranche fully and then part
of the `@300` tranche — not the second-appended `@200` tranche.  The
receiver ends with `[10@100, 5@300]` (no tranche with expiry 200, which the
claimed insertion-order consumption would require) and the sender with
`[5@300, 10@200]`: full consumption swaps the current last tranche into the
emptied slot, so consumption is not in insertion order. -/
theorem consumption_order_cex :
    (∃ sA sB, mintFlash 0 initLedger 1 10 100 = Except.ok sA ∧
      mintFlash 0 sA 1 10 200 = Except.ok sB ∧
      mintFlash 0 sB 1 10 300 = Except.ok wit3) ∧
    (∃ s', transfer 0 wit3 1 2 15 = Except.ok s' ∧
      trOf s' 2 = [⟨10, 100⟩, ⟨5, 300⟩] ∧
      trOf s' 1 = [⟨5, 300⟩, ⟨10, 200⟩] ∧
      (∀ x ∈ trOf s' 2, x.expiresAt ≠ 200)) := by
  refine ⟨⟨_, _, rfl, rfl, rfl⟩, _, rfl, rfl, rfl, by decide⟩

/-- C5 amended: consumption starts in insertion order — the first tranche
consumed is the first stored (index 0) tranche, so a transfer that only
partially consumes it leaves the tail untouched and hands the receiver a
tranche with the head's expiry — but once a tranche is fully consumed the
current *last* tranche is swapped into its slot (`removeSwap`), so
subsequent consumption follows that swap order rather than insertion order,
as the counterexample exhibits. -/
theorem consumption_starts_at_head {s : Ledger} (h : Reachable s)
    {f dst : Addr} (hf : f ≠ 0) (hdst : dst ≠ 0) (hne : f ≠ dst) {t v : Nat}
    {x : Tranche} {rest : List Tranche} (htr : trOf s f = x :: rest)
    (hact : ∀ z ∈ trOf s f, t < z.expiresAt)
    (hactd : ∀ z ∈ trOf s dst, t < z.expiresAt)
    (h0 : 0 < v) (hlt : v < x.amount) :
    ∃ s', transfer t s f dst v = Except.ok s' ∧
      trOf s' f = ⟨x.amount - v, x.expiresAt⟩ :: rest ∧
      trOf s' dst = appendList (trOf s dst) v x.expiresAt :=
  match transfer_head_take_spec (reachable_inv h) hf hdst hne htr hact hactd h0 hlt with
  | ⟨s', heq, h1, h2, _, _⟩ => ⟨s', heq, h1, h2⟩

/-- C5 witness: the head-consumption theorem applied at a concrete reachable
state: transferring 5 out of `[10@100, 10@200, 10@300]` consumes part of the
first-stored tranche only. -/
theorem consumption_starts_at_head_witness :
    ∃ s', transfer 0 wit3 1 2 5 = Except.ok s' ∧
      trOf s' 1 = [⟨5, 100⟩, ⟨10, 200⟩, ⟨10, 300⟩] ∧
      trOf s' 2 = [⟨5, 100⟩] := by
  obtain ⟨s', heq, h1, h2⟩ := consumption_starts_at_head wit3_reachable
    (show (1 : Addr) ≠ 0 by decide) (show (2 : Addr) ≠ 0 by decide)
    (show (1 : Addr) ≠ 2 by decide)
    (show trOf wit3 1 = ⟨10, 100⟩ :: [⟨10, 200⟩, ⟨10, 300⟩] from rfl)
    (show ∀ z ∈ trOf wit3 1, 0 < z.expiresAt by decide)
    (show ∀ z ∈ trOf wit3 2, 0 < z.expiresAt by decide)
    (show (0 : Nat) < 5 by decide)
    (show (5 : Nat) < Tranche.amount ⟨10, 100⟩ by decide)
  refine ⟨s', heq, ?_, ?_⟩
  · rw [h1]
    rfl
  · rw [h2]
    rfl

/-- A concrete reachable state: account `2` was minted `1@100`, `1@200`,
`1@100` in that order. -/
def wit4 : Ledger :=
  match mintFlash 0 initLedger 2 1 100 with
  | Except.ok sA =>
    (match mintFlash 0 sA 2 1 200 with
     | Except.ok sB =>
       (match mintFlash 0 sB 2 1 100 with
        | Except.ok sC => sC
        | Except.error _ => initLedger)
     | Except.error _ => initLedger)
  | Except.error _ => initLedger

/-- C6 counterexample: `_appendTranche` merges only with the *last* stored
tranche, so minting `1@100`, then `1@200`, then `1@100` to the same account
leaves three records, two of which carry the same `expiresAt = 100` — a
reachable state in which identical-expiry tranches are not merged into one
record. -/
theorem merge_duplicate_expiry_cex :
    (∃ sA sB, mintFlash 0 initLedger 2 1 100 = Except.ok sA ∧
      mintFlash 0 sA 2 1 200 = Except.ok sB ∧
      mintFlash 0 sB 2 1 100 = Except.ok wit4) ∧
    trOf wit4 2 = [⟨1, 100⟩, ⟨1, 200⟩, ⟨1, 100⟩] ∧
    ¬ ((trOf wit4 2).map Tranche.expiresAt).Nodup := by
  refine ⟨⟨_, _, rfl, rfl, rfl⟩, rfl, by decide⟩

/-- C6 amended: identical-expiry tranches are merged only when the incoming
tranche's expiry matches the account's most recently stored (last) tranche:
minting with the last tranche's exact expiry updates that record in place
and does not grow the account's tranche list.  (When the matching-expiry
tranche is not in the last position a separate record is created, and
duplicate-expiry records can persist, as the counterexample shows.) -/
theorem merge_only_with_last {s : Ledger} (h : Reachable s) {a : Addr}
    (ha : a ≠ 0) {amt : Nat} (hamt : amt ≠ 0) {t e : Nat} (hte : ¬ e ≤ t)
    (hnil : trOf s a ≠ []) (hlast : ((trOf s a).getLastD dflt).expiresAt = e)
    (hact : ∀ x ∈ trOf s a, t < x.expiresAt) :
    ∃ s', mintFlash t s a amt e = Except.ok s' ∧
      trOf s' a = (trOf s a).set ((trOf s a).length - 1)
        ⟨((trOf s a).getLastD dflt).amount + amt, e⟩ ∧
      (trOf s' a).length = (trOf s a).length := by
  obtain ⟨s', heq, _, htr, _, _, _, _⟩ :=
    mintFlash_spec (reachable_inv h) ha hamt hte
  have hpos : 0 < (trOf s a).length ∧ ((trOf s a).getLastD dflt).expiresAt = e := by
    refine ⟨?_, hlast⟩
    cases htrc : trOf s a with
    | nil => exact absurd htrc hnil
    | cons y r => simp [htrc]
  have hl : trOf s' a = (trOf s a).set ((trOf s a).length - 1)
      ⟨((trOf s a).getLastD dflt).amount + amt, e⟩ := by
    rw [htr, syncList_id hact, appendList, if_pos hpos, hlast]
  refine ⟨s', heq, hl, ?_⟩
  rw [hl, List.length_set]

/-- C6 witness: the merge-with-last theorem applied at a concrete reachable
state: account 1 holds `[100@1000]` and a mint of `7@1000` updates that
record in place. -/
theorem merge_only_with_last_witness :
    ∃ s', mintFlash 5 wit1 1 7 1000 = Except.ok s' ∧
      trOf s' 1 = (trOf wit1 1).set ((trOf wit1 1).length - 1)
        ⟨((trOf wit1 1).getLastD dflt).amount + 7, 1000⟩ ∧
      (trOf s' 1).length = (trOf wit1 1).length :=
  merge_only_with_last wit1_reachable (by decide) (by decide) (by decide)
    (by decide) (by decide) (by decide)

/-- C7: starting from the empty ledger, mint 100 to Alice with a future
expiry `E1`, then transfer 40 from Alice to Bob at a time before `E1`:
Bob ends with exactly one tranche `(40, E1)`, Alice with exactly one tranche
`(60, E1)`, and their balances are 60 and 40 — the moved amount keeps the
consumed source tranche's original expiry on the receiving side. -/
theorem mint_then_transfer_scenario {alice bob : Addr} (hA : alice ≠ 0)
    (hB : bob ≠ 0) (hne : alice ≠ bob) {t1 t2 E1 : Nat} (h1 : t1 < E1)
    (h2 : t2 < E1) :
    ∃ s1 s2, mintFlash t1 initLedger alice 100 E1 = Except.ok s1 ∧
      transfer t2 s1 alice bob 40 = Except.ok s2 ∧
      trOf s2 alice = [⟨60, E1⟩] ∧ trOf s2 bob = [⟨40, E1⟩] ∧
      balOf s2 alice = 60 ∧ balOf s2 bob = 40 := by
  obtain ⟨s1, heq1, hInv1, htr1, hfr1, hbal1, hbalf1, _⟩ :=
    mintFlash_spec inv_init hA (show (100 : Nat) ≠ 0 by decide)
      (show ¬ E1 ≤ t1 by omega)
  have htrA : trOf s1 alice = [⟨100, E1⟩] := by
    rw [htr1, show trOf initLedger alice = [] from rfl]
    rfl
  have htrB : trOf s1 bob = [] := by
    rw [hfr1 bob (fun hh => hne hh.symm)]
    rfl
  have hbA : balOf s1 alice = 100 := by
    rw [hbal1, show trOf initLedger alice = [] from rfl]
    rfl
  have hbB : balOf s1 bob = 0 := by
    rw [hbalf1 bob (fun hh => hne hh.symm)]
    rfl
  obtain ⟨s2, heq2, htr2f, htr2d, hbal2f, hbal2d⟩ :=
    transfer_head_take_spec hInv1 hA hB hne
      (show trOf s1 alice = ⟨100, E1⟩ :: [] from htrA)
      (by
        rw [htrA]
        intro z hz
        simp at hz
        subst hz
        exact h2)
      (by
        rw [htrB]
        intro z hz
        simp at hz)
      (show (0 : Nat) < 40 by decide)
      (show (40 : Nat) < Tranche.amount ⟨100, E1⟩ by simp)
  refine ⟨s1, s2, heq1, heq2, ?_, ?_, ?_, ?_⟩
  · rw [htr2f]
    rfl
  · rw [htr2d, htrB]
    rfl
  · rw [hbA] at hbal2f
    omega
  · rw [hbal2d, hbB]

/-- C7 witness: the scenario theorem at concrete addresses, expiry and
times. -/
theorem mint_then_transfer_scenario_witness :
    ∃ s1 s2, mintFlash 0 initLedger 1 100 1000 = Except.ok s1 ∧
      transfer 5 s1 1 2 40 = Except.ok s2 ∧
      trOf s2 1 = [⟨60, 1000⟩] ∧ trOf s2 2 = [⟨40, 1000⟩] ∧
      balOf s2 1 = 60 ∧ balOf s2 2 = 40 :=
  mint_then_transfer_scenario (by decide) (by decide) (by decide) (by decide)
    (by decide)

/-- C8: minting amount `A` and then amount `B` to the same fresh account
with the identical future expiry `E` (no intervening operations) leaves the
account with exactly one tranche, of amount `A + B` and expiry `E` — the
second mint merges into the first tranche instead of creating a second
record. -/
theorem mint_merge_same_expiry {s : Ledger} (h : Reachable s) {a : Addr}
    (ha : a ≠ 0) (hempty : trOf s a = []) {A B t1 t2 E : Nat} (hA : A ≠ 0)
    (hB : B ≠ 0) (h1 : t1 < E) (h2 : t2 < E) :
    ∃ s1 s2, mintFlash t1 s a A E = Except.ok s1 ∧
      mintFlash t2 s1 a B E = Except.ok s2 ∧ trOf s2 a = [⟨A + B, E⟩] := by
  obtain ⟨s1, heq1, hInv1, htr1, _, _, _, _⟩ :=
    mintFlash_spec (reachable_inv h) ha hA (show ¬ E ≤ t1 by omega)
  have htrA : trOf s1 a = [⟨A, E⟩] := by
    rw [htr1, hempty]
    rfl
  obtain ⟨s2, heq2, hInv2, htr2, _, _, _, _⟩ :=
    mintFlash_spec hInv1 ha hB (show ¬ E ≤ t2 by omega)
  refine ⟨s1, s2, heq1, heq2, ?_⟩
  rw [htr2, htrA, syncList_id (by
    intro z hz
    simp at hz
    subst hz
    exact h2)]
  exact appendList_singleton ⟨A, E⟩ B

/-- C8 witness: the merge theorem applied at the empty ledger with concrete
amounts 50 and 30 and expiry `E1 = 100`. -/
theorem mint_merge_same_expiry_witness :
    ∃ s1 s2, mintFlash 0 initLedger 1 50 100 = Except.ok s1 ∧
      mintFlash 0 s1 1 30 100 = Except.ok s2 ∧ trOf s2 1 = [⟨50 + 30, 100⟩] :=
  mint_merge_same_expiry Reachable.init (by decide) rfl (by decide) (by decide)
    (by decide) (by decide)

/-- C9: in every reachable state, `burnExpired(account)` succeeds, returns
exactly the sum of the tranches with `expiresAt ≤ t` (0 when none), leaves
the account with exactly the unexpired tranches (same amounts and expiries,
as a multiset), leaves every other account untouched, decreases the
account's balance and the total supply by the burned sum, and (when the sum
is positive) emits the expiry-burn event `(account, burned, t)`. -/
theorem burnExpired_removes_expired {s : Ledger} (h : Reachable s) (t : Nat)
    (a : Addr) :
    ∃ s', burnExpired t s a = Except.ok (s', expiredBalanceOf t s a) ∧
      List.Perm (trOf s' a) ((trOf s a).filter (fun x => decide (t < x.expiresAt))) ∧
      (∀ c, c ≠ a → trOf s' c = trOf s c) ∧
      balOf s' a + expiredBalanceOf t s a = balOf s a ∧
      (∀ c, c ≠ a → balOf s' c = balOf s c) ∧
      s'.supply + expiredBalanceOf t s a = s.supply ∧
      (0 < expiredBalanceOf t s a →
        Event.expiredBalanceBurned a (expiredBalanceOf t s a) t ∈ s'.events) := by
  have hInv := reachable_inv h
  obtain ⟨s', hsync, hout⟩ := syncExpiry_ok hInv t a
  simp only [expiredBalanceOf]
  refine ⟨s', ?_, ?_, hout.frame, ?_, hout.balFrame, hout.supplyEq, ?_⟩
  · rw [burnExpired, hsync]
  · rw [hout.trEq]
    exact syncList_perm t (trOf s a)
  · have hb := hout.balA
    have hae := activeSum_add_expiredSum t (trOf s a)
    have hl := hInv.link a
    omega
  · intro hpos
    rw [hout.eventsEq, if_neg (by omega)]
    simp

/-- C9 witness: burning at a time past the only tranche's expiry on a
concrete reachable state. -/
theorem burnExpired_removes_expired_witness :
    ∃ s', burnExpired 2000 wit1 1 = Except.ok (s', expiredBalanceOf 2000 wit1 1) ∧
      List.Perm (trOf s' 1)
        ((trOf wit1 1).filter (fun x => decide (2000 < x.expiresAt))) ∧
      (∀ c, c ≠ 1 → trOf s' c = trOf wit1 c) ∧
      balOf s' 1 + expiredBalanceOf 2000 wit1 1 = balOf wit1 1 ∧
      (∀ c, c ≠ 1 → balOf s' c = balOf wit1 c) ∧
      s'.supply + expiredBalanceOf 2000 wit1 1 = wit1.supply ∧
      (0 < expiredBalanceOf 2000 wit1 1 →
        Event.expiredBalanceBurned 1 (expiredBalanceOf 2000 wit1 1) 2000 ∈ s'.events) :=
  burnExpired_removes_expired wit1_reachable 2000 1

/-- C10: a zero-amount transfer between distinct nonzero accounts succeeds
(no insufficient-balance revert, even for a sender with no tranches), and
still purges and burns every expired tranche on both sides: afterwards each
side holds exactly its unexpired tranches, each side's balance equals its
active balance, and the total supply has decreased by both sides' expired
sums. -/
theorem transfer_zero_purges {s : Ledger} (h : Reachable s) {f dst : Addr}
    (hf : f ≠ 0) (hdst : dst ≠ 0) (hne : f ≠ dst) (t : Nat) :
    ∃ s', transfer t s f dst 0 = Except.ok s' ∧
      List.Perm (trOf s' f) ((trOf s f).filter (fun x => decide (t < x.expiresAt))) ∧
      List.Perm (trOf s' dst) ((trOf s dst).filter (fun x => decide (t < x.expiresAt))) ∧
      balOf s' f = activeBalanceOf t s f ∧
      balOf s' dst = activeBalanceOf t s dst ∧
      s'.supply + expiredBalanceOf t s f + expiredBalanceOf t s dst = s.supply :=
  transfer_zero_spec (reachable_inv h) hf hdst hne t

/-- C10 witness: the zero-transfer theorem applied at a concrete reachable
state and a time past the sender's only expiry. -/
theorem transfer_zero_purges_witness :
    ∃ s', transfer 2000 wit1 1 2 0 = Except.ok s' ∧
      List.Perm (trOf s' 1)
        ((trOf wit1 1).filter (fun x => decide (2000 < x.expiresAt))) ∧
      List.Perm (trOf s' 2)
        ((trOf wit1 2).filter (fun x => decide (2000 < x.expiresAt))) ∧
      balOf s' 1 = activeBalanceOf 2000 wit1 1 ∧
      balOf s' 2 = activeBalanceOf 2000 wit1 2 ∧
      s'.supply + expiredBalanceOf 2000 wit1 1 + expiredBalanceOf 2000 wit1 2 =
        wit1.supply :=
  transfer_zero_purges wit1_reachable (by decide) (by decide) (by decide) 2000

end Flash
